import Mathlib

/-!
Verification development for the `jsondiscrim` Go package
(discriminated-union JSON unmarshaling via `Const` marker fields).

The Go sources are shallowly embedded:

* JSON raw values (the result of `jsontext.Decoder.ReadValue`) become the
  inductive `JValue`; raw-byte-level syntax errors are below this
  abstraction (a `JValue` is a successfully read raw value), and the
  `ReadValue` failure itself is threaded explicitly where a claim needs it.
* Go `any` values produced by decoding (`json.UnmarshalDecode` into `any`)
  and by `Const.Value()` become `GoAny`.  The constructors keep Go's
  dynamic-type distinctions: a JSON number generically decodes to
  `GoAny.float` (Go `float64`) which is a *different* dynamic type from
  `GoAny.int` (Go `int`), exactly as in Go interface equality.
* Go maps become association lists with overwrite-insert (`alistInsert`);
  Go's randomized map iteration order is modeled by insertion order, a
  deterministic refinement that only affects which of several qualifying
  field names is reported in error messages.
* Go panics at construction time become `Except ConfigError`; decode-time
  errors become `Except` with structured error values mirroring the
  `fmt.Errorf` messages.
* `reflect` metadata of a candidate struct type becomes `TypeDesc` /
  `FieldDesc`; a Go interface value (a candidate or the fallback) becomes
  `IfaceVal`, where `typ = none` models the nil interface value and
  `ptrNil` records whether a held pointer is nil (a typed nil pointer has
  `typ = some _`, `ptrNil = true`).
-/

deriving instance DecidableEq for Except

namespace Jsondiscrim

/-- The value of one object member.  Numbers are restricted to integers,
which covers every constant in scope.  Composite member values (nested
arrays/objects) are opaque (`comp` with an identifying tag): the code under
study only ever skips them token-wise (`SkipValue`) or passes them through
unchanged to the external codec, so their internal structure never matters. -/
inductive JVal where
  | null
  | bool (b : Bool)
  | num (n : Int)
  | str (s : String)
  | comp (tag : Nat)
deriving DecidableEq

/-- A JSON raw value, as returned by a successful `jsontext` `ReadValue`.
Raw-byte syntax errors happen inside `ReadValue` and are below this
abstraction.  A top-level array's contents are opaque for the same reason
composite member values are. -/
inductive JValue where
  | null
  | bool (b : Bool)
  | num (n : Int)
  | str (s : String)
  | arr (tag : Nat)
  | obj (members : List (String × JVal))
deriving DecidableEq

/-- The token kind of the first token of a raw value (`jsontext.Kind`). -/
inductive JKind where
  | null | bool | num | str | arr | obj
deriving DecidableEq

def kindOf : JValue → JKind
  | .null => .null
  | .bool _ => .bool
  | .num _ => .num
  | .str _ => .str
  | .arr _ => .arr
  | .obj _ => .obj

/-- A Go `any` (interface) value as used for discriminator constants and for
generically decoded discriminator values.  `float` models `float64` (the
dynamic type produced by generic JSON number decoding), `int` models `int`
(the dynamic type of an integer `Const` constant); the two are unequal as Go
interface values even for the same numeral.  `comp` models composite values
(Go `[]any` / `map[string]any`), opaque like `JVal.comp`. -/
inductive GoAny where
  | null
  | bool (b : Bool)
  | int (n : Int)
  | float (n : Int)
  | str (s : String)
  | comp (tag : Nat)
deriving DecidableEq

/-- Generic decoding of an object member's value into Go `any`
(`json.UnmarshalDecode(d, &v)` for `var v any` in `fieldValue`):
JSON numbers become `float64`, other scalars their obvious Go type,
composites stay opaque. -/
def genericDecode : JVal → GoAny
  | .null => .null
  | .bool b => .bool b
  | .num n => .float n
  | .str s => .str s
  | .comp t => .comp t

/-- Encoding of a Go `any` constant to its JSON form
(`json.Marshal(v.Value())` in `Const.MarshalJSON`). -/
def encodeGoAny : GoAny → JVal
  | .null => .null
  | .bool b => .bool b
  | .int n => .num n
  | .float n => .num n
  | .str s => .str s
  | .comp t => .comp t

section AList

variable {K : Type} {A : Type} [DecidableEq K]

/-- Lookup in an association list (Go map read `m[k]`): first binding wins.
Keys built by `alistInsert` are unique, so this is the Go map lookup. -/
def alistFind (k : K) : List (K × A) → Option A
  | [] => none
  | (k', a) :: rest => if k' = k then some a else alistFind k rest

/-- Go map write `m[k] = a`: overwrite an existing binding in place, else
append a new binding. -/
def alistInsert (k : K) (a : A) : List (K × A) → List (K × A)
  | [] => [(k, a)]
  | (k', a') :: rest =>
    if k' = k then (k, a) :: rest else (k', a') :: alistInsert k a rest

def alistKeys (l : List (K × A)) : List K := l.map Prod.fst

end AList

/-- Metadata of one visible struct field, as seen through `reflect`.
`constVal` is `some v` when the field's type implements the
`constValue() any` capability (i.e. is a `Const` marker) with constant `v`;
`exported` is false when `f.PkgPath != ""`. -/
structure FieldDesc where
  name : String
  jsonTag : String
  exported : Bool
  constVal : Option GoAny
deriving DecidableEq

/-- Metadata of a candidate's concrete type after the optional pointer
dereference in `constFields` (`t.Elem()`): either a struct with its visible
fields, or not a struct at all. -/
structure TypeDesc where
  isStruct : Bool
  fields : List FieldDesc
deriving DecidableEq

/-- A Go interface value holding a candidate (or the fallback).
`typ = none` is the nil interface value; a typed nil pointer is
`typ = some t, ptrNil = true`, which is *not* a nil interface value. -/
structure IfaceVal where
  typ : Option TypeDesc
  ptrNil : Bool
deriving DecidableEq

/-- `isNil` from discrim.go: `reflect.ValueOf(&x).Elem().IsNil()` on an
interface-typed variable is true exactly for the nil interface value;
a non-nil interface holding a nil pointer reports false. -/
def isNil (x : IfaceVal) : Bool := x.typ.isNone

/-- The zero interface value `*new(T)` used by `Structs` as absent fallback. -/
def nilIface : IfaceVal := ⟨none, false⟩

/-- Construction-time failures.  Each constructor models one `panic` in the
Go sources; panicking (a fatal configuration defect) is modeled as an
`Except.error` of this type, kept distinct from decode-time input errors. -/
inductive ConfigError where
  | noChoices
  | nilArgument (i : Nat)
  | nilTypeDereference
  | notStruct
  | duplicateJSONName (name : String)
  | ambiguous (f1 f2 : String)
  | cannotDetermine (possibles : List String)
  | constNotStruct
  | constFieldTypeMismatch
  | constNoTag
  | malformedConstTag (tag : String)
deriving DecidableEq

/-- The characters of a tag before the first comma (`strings.Cut(tag, ",")`,
first component). -/
def takeUntilComma : List Char → List Char
  | [] => []
  | c :: rest => if c = ',' then [] else c :: takeUntilComma rest

/-- `jsonFieldName` from discrim.go: the wire name of a field is the part of
its `json` tag before the first comma if that is nonempty, else the
in-source field name. -/
def jsonFieldName (f : FieldDesc) : String :=
  if f.jsonTag ≠ "" then
    let jsonName : String := ⟨takeUntilComma f.jsonTag.data⟩
    if jsonName ≠ "" then jsonName else f.name
  else f.name

/-- The loop body of `constFields`: walk the visible fields in order,
skipping unexported fields and fields without the `constValue` capability;
record `(wireName, constant)` and fail on a duplicate wire name. -/
def constFieldsLoop : List FieldDesc → List (String × GoAny) →
    Except ConfigError (List (String × GoAny))
  | [], acc => .ok acc
  | f :: rest, acc =>
    if f.exported = false then constFieldsLoop rest acc
    else
      match f.constVal with
      | none => constFieldsLoop rest acc
      | some v =>
        let name := jsonFieldName f
        if (alistFind name acc).isSome then .error (.duplicateJSONName name)
        else constFieldsLoop rest (acc ++ [(name, v)])

/-- `constFields` from discrim.go, applied to the (already
pointer-dereferenced) type metadata: the map from wire name to constant
value of every visible `Const`-typed field. -/
def constFields (t : TypeDesc) : Except ConfigError (List (String × GoAny)) :=
  if t.isStruct = false then .error .notStruct
  else constFieldsLoop t.fields []

/-- `constFields(reflect.TypeOf(choice))`: on the nil interface value,
`reflect.TypeOf` returns the nil `reflect.Type` and the method call inside
`constFields` is a nil dereference panic (this path is only reachable from
the old, check-free `Structs`). -/
def constFieldsOf (c : IfaceVal) : Except ConfigError (List (String × GoAny)) :=
  match c.typ with
  | none => .error .nilTypeDereference
  | some t => constFields t

/-- The inner tables of `determineDiscriminator`: for each wire name, the
map from constant value to the (last) choice carrying it. -/
abbrev Table := List (GoAny × IfaceVal)

abbrev Discrims := List (String × Table)

/-- One `byValue[v] = choice` step including the lazy creation of the inner
map (`discrims[fieldName]`). -/
def discrimInsert (d : Discrims) (name : String) (v : GoAny) (choice : IfaceVal) :
    Discrims :=
  alistInsert name (alistInsert v choice ((alistFind name d).getD [])) d

/-- The inner `for fieldName, v := range constFields(...)` loop for a single
choice. -/
def addChoiceFields (d : Discrims) (choice : IfaceVal)
    (cf : List (String × GoAny)) : Discrims :=
  cf.foldl (fun d p => discrimInsert d p.1 p.2 choice) d

/-- The `for i, choice := range choices` loop of `determineDiscriminator`:
reject nil interface choices, then accumulate each choice's const fields. -/
def buildDiscrims : Nat → Discrims → List IfaceVal → Except ConfigError Discrims
  | _, d, [] => .ok d
  | i, d, c :: rest =>
    if isNil c then .error (.nilArgument i)
    else
      match constFieldsOf c with
      | .error e => .error e
      | .ok cf => buildDiscrims (i + 1) (addChoiceFields d c cf) rest

/-- The same loop in the old `Structs` (part_001), which has no nil-argument
check: a nil interface choice instead reaches `reflect.TypeOf` and panics
with a nil dereference inside `constFields`. -/
def buildDiscrimsOld : Discrims → List IfaceVal → Except ConfigError Discrims
  | d, [] => .ok d
  | d, c :: rest =>
    match constFieldsOf c with
    | .error e => .error e
    | .ok cf => buildDiscrimsOld (addChoiceFields d c cf) rest

/-- The selection loop of `determineDiscriminator`: a field qualifies when
its inner map has exactly `len(choices)` entries; a second qualifying field
is the "ambiguous" panic; the not-yet-found state is the sentinel `""`. -/
def pickDiscrimLoop (n : Nat) (discrimField : String) (acc : Table) :
    List (String × Table) → Except ConfigError (String × Table)
  | [] => .ok (discrimField, acc)
  | (name, byValue) :: rest =>
    if byValue.length ≠ n then pickDiscrimLoop n discrimField acc rest
    else if discrimField ≠ "" then .error (.ambiguous discrimField name)
    else pickDiscrimLoop n name byValue rest

/-- `slices.Sorted(maps.Keys(discrims))` in the "cannot determine" panic. -/
def sortedKeys (d : Discrims) : List String :=
  List.insertionSort (· ≤ ·) (alistKeys d)

/-- `determineDiscriminator` from discrim.go. -/
def determineDiscriminator (choices : List IfaceVal) :
    Except ConfigError (String × Table) :=
  match buildDiscrims 0 [] choices with
  | .error e => .error e
  | .ok discrims =>
    match pickDiscrimLoop choices.length "" [] discrims with
    | .error e => .error e
    | .ok (discrimField, byValue) =>
      if discrimField = "" then .error (.cannotDetermine (sortedKeys discrims))
      else .ok (discrimField, byValue)

/-- The behavior of the unmarshaler produced by `StructsWithFallback`:
either the direct passthrough decode (no choices, fallback only) or the
discriminated decode with the inferred field, its table, and the fallback
(`hasFallback` is the construction-time `!isNil(fallback)`). -/
inductive Unmarshaler where
  | passthrough (fallback : IfaceVal)
  | discriminated (field : String) (byValue : Table) (fallback : IfaceVal)
      (hasFallback : Bool)
deriving DecidableEq

/-- `StructsWithFallback` from discrim.go (construction phase).  The
`T is not an interface type` panic is a host-type-level check with no
counterpart in this value-level embedding. -/
def StructsWithFallback (fallback : IfaceVal) (choices : List IfaceVal) :
    Except ConfigError Unmarshaler :=
  let hasFallback := !isNil fallback
  if choices.length = 0 ∧ hasFallback = false then .error .noChoices
  else
    match choices.length with
    | 0 => .ok (.passthrough fallback)
    | _ + 1 =>
      match determineDiscriminator choices with
      | .error e => .error e
      | .ok (discrimField, byValue) =>
        if discrimField = "" then .ok (.passthrough fallback)
        else .ok (.discriminated discrimField byValue fallback hasFallback)

/-- `Structs` from discrim.go: delegate with the zero (nil) fallback. -/
def Structs (choices : List IfaceVal) : Except ConfigError Unmarshaler :=
  StructsWithFallback nilIface choices

/-- The old `Structs` (part_001, construction phase): no fallback notion;
the discriminator inference is the same code inlined, minus the
nil-argument check. -/
def structsOld (choices : List IfaceVal) :
    Except ConfigError (String × Table) :=
  if choices.length = 0 then .error .noChoices
  else
    match buildDiscrimsOld [] choices with
    | .error e => .error e
    | .ok discrims =>
      match pickDiscrimLoop choices.length "" [] discrims with
      | .error e => .error e
      | .ok (discrimField, byValue) =>
        if discrimField = "" then .error (.cannotDetermine (sortedKeys discrims))
        else .ok (discrimField, byValue)

/-! ## Decode-time behavior -/

/-- The two decode-time failures of `fieldValue`: the raw value's first
token is not an object open, or the object ended without the field.  (The
`unexpected token` case is unreachable on well-formed raw values, which is
all a successful `ReadValue` can produce.) -/
inductive InputError where
  | expectedObject (kind : JKind)
  | fieldNotFound (name : String)
deriving DecidableEq

/-- The member-scanning loop of `fieldValue`: skip members until the wire
name matches, then decode that member's value generically; reaching `}` is
the `discriminator field not found` error. -/
def fieldValueLoop (fieldName : String) :
    List (String × JVal) → Except InputError GoAny
  | [] => .error (.fieldNotFound fieldName)
  | (k, v) :: rest =>
    if k = fieldName then .ok (genericDecode v)
    else fieldValueLoop fieldName rest

/-- `fieldValue` from discrim.go: single forward scan of the raw span for
one field. -/
def fieldValue (data : JValue) (fieldName : String) : Except InputError GoAny :=
  match data with
  | .obj members => fieldValueLoop fieldName members
  | v => .error (.expectedObject (kindOf v))

/-- Decode-time errors of a produced unmarshaler, over an abstract external
codec error type `E`.  `read` is a failing `d.ReadValue()`, `codec` a
failing final `json.Unmarshal` into the chosen shape. -/
inductive DecodeError (E : Type) where
  | read (e : E)
  | input (e : InputError)
  | unknownValue (v : GoAny) (valid : List GoAny)
  | codec (e : E)
deriving DecidableEq

/-- The final step shared by all paths that chose a decode target: make a
fresh zero instance of the target's concrete type and decode the entire
original raw span into it with the external codec (`reflect.New` +
`json.Unmarshal(raw, zero, d.Options())`).  The fresh-instance construction
is folded into the external decode function `ext`, which decodes `raw` into
a new instance of its first argument's type. -/
def decodeTarget {E I : Type} (ext : IfaceVal → JValue → Except E I)
    (target : IfaceVal) (raw : JValue) : Except (DecodeError E) I :=
  match ext target raw with
  | .error e => .error (.codec e)
  | .ok zero => .ok zero

/-- The discriminated-mode unmarshal closure of `StructsWithFallback`
(lines 63-93 of discrim.go), after a successful `ReadValue` produced `raw`:
locate the discriminator value; a scan error is fatal only without a
fallback; an unknown value is fatal only without a fallback; otherwise
decode the whole raw span into the chosen candidate or the fallback. -/
def decodeDiscriminated {E I : Type} (ext : IfaceVal → JValue → Except E I)
    (field : String) (byValue : Table) (fallback : IfaceVal)
    (hasFallback : Bool) (raw : JValue) : Except (DecodeError E) I :=
  match fieldValue raw field with
  | .error e =>
    if hasFallback = false then .error (.input e)
    else decodeTarget ext fallback raw
  | .ok discrimValue =>
    match alistFind discrimValue byValue with
    | some choice => decodeTarget ext choice raw
    | none =>
      if hasFallback = false then
        .error (.unknownValue discrimValue (alistKeys byValue))
      else decodeTarget ext fallback raw

/-- The no-discriminator unmarshal closure of `StructsWithFallback`
(lines 51-61): a direct decode of the next value into a fresh fallback
instance, with no buffering and no peeking. -/
def decodePassthrough {E I : Type} (ext : IfaceVal → JValue → Except E I)
    (fallback : IfaceVal) (raw : JValue) : Except (DecodeError E) I :=
  decodeTarget ext fallback raw

/-- The unmarshal closure of the old `Structs` (part_001, lines 53-74):
like discriminated mode but with every failure fatal. -/
def decodeOld {E I : Type} (ext : IfaceVal → JValue → Except E I)
    (field : String) (byValue : Table) (raw : JValue) :
    Except (DecodeError E) I :=
  match fieldValue raw field with
  | .error e => .error (.input e)
  | .ok discrimValue =>
    match alistFind discrimValue byValue with
    | none => .error (.unknownValue discrimValue (alistKeys byValue))
    | some choice => decodeTarget ext choice raw

/-- The discriminated-mode closure with its destination slot `*src` made
explicit, translated statement by statement: every `return err` leaves the
slot untouched and only the final `*src = zero` writes it.  `readResult` is
the outcome of the initial `d.ReadValue()`. -/
def unmarshalDiscrimInto {E I : Type} (ext : IfaceVal → JValue → Except E I)
    (field : String) (byValue : Table) (fallback : IfaceVal)
    (hasFallback : Bool) (readResult : Except E JValue) (dst : Option I) :
    Option I × Option (DecodeError E) :=
  match readResult with
  | .error e => (dst, some (.read e))
  | .ok raw =>
    match fieldValue raw field with
    | .error e =>
      if hasFallback = false then (dst, some (.input e))
      else
        match ext fallback raw with
        | .error e' => (dst, some (.codec e'))
        | .ok zero => (some zero, none)
    | .ok discrimValue =>
      match alistFind discrimValue byValue with
      | some choice =>
        match ext choice raw with
        | .error e' => (dst, some (.codec e'))
        | .ok zero => (some zero, none)
      | none =>
        if hasFallback = false then
          (dst, some (.unknownValue discrimValue (alistKeys byValue)))
        else
          match ext fallback raw with
          | .error e' => (dst, some (.codec e'))
          | .ok zero => (some zero, none)

/-- The passthrough closure with its destination slot made explicit;
`decodeResult` is the outcome of `json.UnmarshalDecode(d, zero)` into the
fresh fallback instance. -/
def unmarshalPassthroughInto {E I : Type} (decodeResult : Except E I)
    (dst : Option I) : Option I × Option (DecodeError E) :=
  match decodeResult with
  | .error e => (dst, some (.codec e))
  | .ok zero => (some zero, none)

/-! ## The `Const[T, S]` marker (part_000) -/

/-- The constant-carrying type parameter `T` of `Const[T, S]`.  The code
distinguishes only the string kind (verbatim tag) from everything else
(JSON-decoded tag); `int` and `bool` cover the non-string kinds exercised
by the repository. -/
inductive PrimTy where
  | str | int | bool
deriving DecidableEq

/-- `json.Unmarshal(data, &got)` for a `got` of type `T`: a typed decode of
a raw value, failing on a JSON kind that does not fit `T`. -/
def typedDecode : PrimTy → JValue → Option GoAny
  | .str, .str s => some (.str s)
  | .int, .num n => some (.int n)
  | .bool, .bool b => some (.bool b)
  | _, _ => none

def digitVal (c : Char) : Option Nat :=
  if '0' ≤ c ∧ c ≤ '9' then some (c.toNat - '0'.toNat) else none

def parseNatAux : List Char → Nat → Option Nat
  | [], acc => some acc
  | c :: rest, acc =>
    match digitVal c with
    | none => none
    | some d => parseNatAux rest (acc * 10 + d)

/-- The decimal integer literals accepted when JSON-decoding a tag into an
integer type: optional sign followed by one or more digits. -/
def parseIntLit (s : String) : Option Int :=
  match s.data with
  | [] => none
  | '-' :: rest =>
    match rest with
    | [] => none
    | _ => (parseNatAux rest 0).map (fun n => -(n : Int))
  | cs => (parseNatAux cs 0).map (fun n => (n : Int))

/-- `json.Unmarshal([]byte(jsonVal), &constVal)` on a `const` tag literal
for a non-string `T` (and, for completeness, the JSON string decode that
the verbatim string branch bypasses). -/
def decodeConstTag : PrimTy → String → Option GoAny
  | .int, s => (parseIntLit s).map GoAny.int
  | .bool, s =>
    if s = "true" then some (.bool true)
    else if s = "false" then some (.bool false)
    else none
  | .str, s =>
    match s.data with
    | [] => none
    | c :: rest =>
      if c = '\x22' ∧ rest ≠ [] ∧ rest.getLast? = some '\x22' then
        some (.str ⟨rest.dropLast⟩)
      else none

/-- The type parameter `S` of `Const[T, S]` as seen through `reflect`:
whether it is a struct, and for each field its type and the result of
`Tag.Lookup("const")`. -/
structure ConstStructDesc where
  isStruct : Bool
  fields : List (PrimTy × Option String)
deriving DecidableEq

/-- `makeConstInfo` from part_000: validate `S` (struct, exactly one field,
field type equal to `T`, `const` tag present) and extract the constant —
verbatim for the string kind, by ordinary JSON decoding otherwise.  Each
`.error` models one panic; the two `NumField`/`Kind` panics share the
message `const type argument is not struct` and so share a constructor. -/
def makeConstInfo (T : PrimTy) (S : ConstStructDesc) : Except ConfigError GoAny :=
  if S.isStruct = false then .error .constNotStruct
  else
    match S.fields with
    | [(fieldTy, tag)] =>
      if fieldTy ≠ T then .error .constFieldTypeMismatch
      else
        match tag with
        | none => .error .constNoTag
        | some jsonVal =>
          if T = .str then .ok (.str jsonVal)
          else
            match decodeConstTag T jsonVal with
            | none => .error (.malformedConstTag jsonVal)
            | some v => .ok v
    | _ => .error .constNotStruct

/-- `Const[T, S].Value()`: the `sync.Map` memoization computes
`makeConstInfo` once per identity and is semantically transparent (a
first-writer-wins cache of a deterministic computation), so `Value` is
`makeConstInfo`. -/
def constValue (T : PrimTy) (S : ConstStructDesc) : Except ConfigError GoAny :=
  makeConstInfo T S

/-- The failures of `Const.UnmarshalJSON`: the typed decode of the input
failed, or the decoded value differs from the constant (the error message
carries both, `got %#v but want %#v`). -/
inductive ConstUnmErr where
  | codec
  | mismatch (got want : GoAny)
deriving DecidableEq

/-- `Const[T, S].UnmarshalJSON(data)` from part_000, with the already
extracted constant `val = v.Value()`: decode `data` as a `T`, then require
equality with the constant. -/
def constUnmarshalJSON (T : PrimTy) (val : GoAny) (data : JValue) :
    Except ConstUnmErr Unit :=
  match typedDecode T data with
  | none => .error .codec
  | some got => if got = val then .ok () else .error (.mismatch got val)

/-! ## A concrete model of the external codec on candidate instances

The external collaborator (`go-json-experiment/json`) is not part of this
repository; the decode/encode of whole candidate instances is modeled from
the spec's description of the collaborator (§6) together with the `Const`
marshal/unmarshal methods of part_000, concretely enough to evaluate the
round-trip pipeline end to end. -/

/-- An instance of a candidate shape: its concrete type plus the values of
its non-`Const` fields by wire name.  Since JSON object members populate
*named* struct fields, the field assignment is kept canonically sorted by
wire name, making instance equality independent of member order. -/
structure Instance where
  typ : TypeDesc
  others : List (String × JVal)
deriving DecidableEq

/-- Sort a member list by wire name (the canonical form of a named-field
assignment). -/
def sortByKey (l : List (String × JVal)) : List (String × JVal) :=
  List.insertionSort (fun a b => a.1 ≤ b.1) l

/-- Modelled from the spec (§4.1 `unmarshal`): the accept condition of
`Const.UnmarshalJSON` when the external codec decodes an object member into
a `Const` field whose constant is `cv` — decode the member as the
constant's type and compare with the constant; a kind mismatch is a decode
error and an unequal value is the mismatch error, both rejections here. -/
def decodeConstCheck (cv : GoAny) (v : JVal) : Bool :=
  match cv, v with
  | .str s, .str s' => s = s'
  | .int n, .num m => n = m
  | .float n, .num m => n = m
  | .bool b, .bool b' => b = b'
  | .null, .null => true
  | .comp t, .comp t' => t = t'
  | _, _ => false

/-- Modelled from the spec (§6 collaborator (b)): the external codec's
decode of raw bytes into a fresh instance of a concrete shape.  A
non-object raw value fails; members hitting a `Const` field are validated
by the marker's unmarshal method; the remaining members populate the named
non-`Const` fields. -/
def extDecodeInst (target : IfaceVal) (raw : JValue) : Except String Instance :=
  match target.typ with
  | none => .error "nil target type"
  | some t =>
    match constFields t with
    | .error _ => .error "invalid shape"
    | .ok consts =>
      match raw with
      | .obj members =>
        if members.all (fun kv =>
            match alistFind kv.1 consts with
            | some cv => decodeConstCheck cv kv.2
            | none => true) then
          .ok ⟨t, sortByKey (members.filter
            (fun kv => (alistFind kv.1 consts).isNone))⟩
        else .error "const value mismatch"
      | _ => .error "cannot unmarshal non-object into struct"

/-- Modelled from the spec (§6 collaborator (c) and §4.1 `marshal`): the
external codec's encoding of a candidate instance — `Const` fields marshal
to their constants, other fields to their held values. -/
def marshalInst (inst : Instance) : JValue :=
  match constFields inst.typ with
  | .error _ => .obj inst.others
  | .ok consts =>
    .obj (consts.map (fun p => (p.1, encodeGoAny p.2)) ++ inst.others)


/-! ## Association-list lemmas -/

section AListLemmas

variable {K A : Type} [DecidableEq K]

theorem alistKeys_nil : alistKeys ([] : List (K × A)) = [] := rfl

theorem alistKeys_cons (p : K × A) (l : List (K × A)) :
    alistKeys (p :: l) = p.1 :: alistKeys l := rfl

theorem alistKeys_append (l l' : List (K × A)) :
    alistKeys (l ++ l') = alistKeys l ++ alistKeys l' := by
  simp [alistKeys]

theorem alistFind_insert_self (k : K) (a : A) (l : List (K × A)) :
    alistFind k (alistInsert k a l) = some a := by
  induction l with
  | nil => simp [alistInsert, alistFind]
  | cons p rest ih =>
    obtain ⟨k', a'⟩ := p
    by_cases h : k' = k
    · simp [alistInsert, h, alistFind]
    · simp [alistInsert, h, alistFind, ih]

theorem alistFind_insert_ne (k' k : K) (a : A) (l : List (K × A)) (h : k' ≠ k) :
    alistFind k' (alistInsert k a l) = alistFind k' l := by
  have h' : ¬ k = k' := fun hh => h hh.symm
  induction l with
  | nil => simp [alistInsert, alistFind, h']
  | cons p rest ih =>
    obtain ⟨k₀, a₀⟩ := p
    by_cases hk : k₀ = k
    · subst hk
      simp [alistInsert, alistFind, h']
    · by_cases hk' : k₀ = k'
      · subst hk'
        simp [alistInsert, hk, alistFind]
      · simp [alistInsert, hk, alistFind, hk', ih]

theorem mem_alistKeys_iff_find_isSome (k : K) (l : List (K × A)) :
    k ∈ alistKeys l ↔ (alistFind k l).isSome := by
  induction l with
  | nil => simp [alistKeys_nil, alistFind]
  | cons p rest ih =>
    obtain ⟨k₀, a₀⟩ := p
    by_cases h : k₀ = k
    · subst h
      simp [alistKeys_cons, alistFind]
    · simp [alistKeys_cons, alistFind, h, Ne.symm h, ih]

theorem alistKeys_insert_mem (k : K) (a : A) (l : List (K × A))
    (h : k ∈ alistKeys l) : alistKeys (alistInsert k a l) = alistKeys l := by
  induction l with
  | nil => simp [alistKeys_nil] at h
  | cons p rest ih =>
    obtain ⟨k₀, a₀⟩ := p
    by_cases hk : k₀ = k
    · subst hk
      simp [alistInsert, alistKeys_cons]
    · have hmem : k ∈ alistKeys rest := by
        rcases List.mem_cons.mp (by simpa [alistKeys_cons] using h) with h1 | h2
        · exact absurd h1.symm hk
        · exact h2
      simp [alistInsert, hk, alistKeys_cons, ih hmem]

theorem alistKeys_insert_not_mem (k : K) (a : A) (l : List (K × A))
    (h : k ∉ alistKeys l) :
    alistKeys (alistInsert k a l) = alistKeys l ++ [k] := by
  induction l with
  | nil => simp [alistInsert, alistKeys]
  | cons p rest ih =>
    obtain ⟨k₀, a₀⟩ := p
    simp only [alistKeys_cons, List.mem_cons] at h
    push_neg at h
    have hk : ¬ k₀ = k := fun hh => h.1 hh.symm
    simp [alistInsert, hk, alistKeys_cons, ih h.2]

theorem alistKeys_insert_nodup (k : K) (a : A) (l : List (K × A))
    (h : (alistKeys l).Nodup) : (alistKeys (alistInsert k a l)).Nodup := by
  by_cases hm : k ∈ alistKeys l
  · rw [alistKeys_insert_mem k a l hm]; exact h
  · rw [alistKeys_insert_not_mem k a l hm]
    simpa [List.nodup_append] using ⟨h, hm⟩

theorem mem_alistKeys_insert (k' k : K) (a : A) (l : List (K × A)) :
    k' ∈ alistKeys (alistInsert k a l) ↔ k' = k ∨ k' ∈ alistKeys l := by
  by_cases hm : k ∈ alistKeys l
  · rw [alistKeys_insert_mem k a l hm]
    constructor
    · exact .inr
    · rintro (rfl | h)
      · exact hm
      · exact h
  · rw [alistKeys_insert_not_mem k a l hm]
    simp [or_comm]

theorem alistInsert_length_le (k : K) (a : A) (l : List (K × A)) :
    (alistInsert k a l).length ≤ l.length + 1 := by
  induction l with
  | nil => simp [alistInsert]
  | cons p rest ih =>
    obtain ⟨k₀, a₀⟩ := p
    by_cases hk : k₀ = k
    · simp [alistInsert, hk]
    · simpa [alistInsert, hk] using ih

theorem alistFind_of_mem_nodup (k : K) (a : A) (l : List (K × A))
    (hnd : (alistKeys l).Nodup) (hm : (k, a) ∈ l) : alistFind k l = some a := by
  induction l with
  | nil => simp at hm
  | cons p rest ih =>
    obtain ⟨k₀, a₀⟩ := p
    simp only [alistKeys_cons, List.nodup_cons] at hnd
    rcases List.mem_cons.mp hm with heq | hm'
    · injection heq with h1 h2
      subst h1
      subst h2
      simp [alistFind]
    · have hk : ¬ k₀ = k := by
        intro hh
        subst hh
        exact hnd.1 (List.mem_map_of_mem Prod.fst hm')
      simp [alistFind, hk, ih hnd.2 hm']

theorem alistFind_mem (k : K) (a : A) (l : List (K × A))
    (h : alistFind k l = some a) : (k, a) ∈ l := by
  induction l with
  | nil => simp [alistFind] at h
  | cons p rest ih =>
    obtain ⟨k₀, a₀⟩ := p
    by_cases hk : k₀ = k
    · subst hk
      simp [alistFind] at h
      simp [h]
    · simp [alistFind, hk] at h
      exact List.mem_cons_of_mem _ (ih h)

theorem alistInsert_not_mem_append (k : K) (a : A) (l : List (K × A))
    (h : k ∉ alistKeys l) : alistInsert k a l = l ++ [(k, a)] := by
  induction l with
  | nil => simp [alistInsert]
  | cons p rest ih =>
    obtain ⟨k₀, a₀⟩ := p
    simp only [alistKeys_cons, List.mem_cons] at h
    push_neg at h
    have hk : ¬ k₀ = k := fun hh => h.1 hh.symm
    simp [alistInsert, hk, ih h.2]

/-- Folding overwrite-inserts of bindings whose keys are fresh and pairwise
distinct appends them in order. -/
theorem foldl_alistInsert_fresh (l : List (K × A)) (acc : List (K × A))
    (hnd : (alistKeys l).Nodup)
    (hfresh : ∀ k ∈ alistKeys l, k ∉ alistKeys acc) :
    l.foldl (fun m p => alistInsert p.1 p.2 m) acc = acc ++ l := by
  induction l generalizing acc with
  | nil => simp
  | cons p rest ih =>
    obtain ⟨k, a⟩ := p
    simp only [alistKeys_cons, List.nodup_cons] at hnd
    have hk : k ∉ alistKeys acc := hfresh k (by simp [alistKeys_cons])
    rw [List.foldl_cons]
    show List.foldl (fun m p => alistInsert p.1 p.2 m) (alistInsert k a acc) rest = _
    rw [alistInsert_not_mem_append k a acc hk]
    rw [ih (acc ++ [(k, a)]) hnd.2]
    · simp
    · intro k' hk' hmem
      rw [alistKeys_append] at hmem
      rcases List.mem_append.mp hmem with h | h
      · exact hfresh k' (by simp [alistKeys_cons, hk']) h
      · have : k' = k := by simpa [alistKeys] using h
        subst this
        exact hnd.1 hk'

theorem foldl_alistInsert_length_le (l : List (K × A)) (acc : List (K × A)) :
    (l.foldl (fun m p => alistInsert p.1 p.2 m) acc).length ≤
      acc.length + l.length := by
  induction l generalizing acc with
  | nil => simp
  | cons p rest ih =>
    rw [List.foldl_cons]
    calc (List.foldl (fun m p => alistInsert p.1 p.2 m) (alistInsert p.1 p.2 acc) rest).length
        ≤ (alistInsert p.1 p.2 acc).length + rest.length := ih _
      _ ≤ acc.length + 1 + rest.length :=
          Nat.add_le_add_right (alistInsert_length_le _ _ _) _
      _ = acc.length + (p :: rest).length := by
          simp [List.length_cons]
          omega

end AListLemmas

/-! ## Analysis of discriminator inference -/

/-- The `(constantValue, candidate)` entries contributed for wire name `w`
by the choices in order (spec §4.2 step 2), relative to a per-candidate
const-field table `cf`. -/
def entriesFor (cf : IfaceVal → List (String × GoAny)) (w : String)
    (choices : List IfaceVal) : List (GoAny × IfaceVal) :=
  choices.filterMap (fun c => (alistFind w (cf c)).map (fun v => (v, c)))

def byValueFrom (start : Table) (es : List (GoAny × IfaceVal)) : Table :=
  es.foldl (fun m p => alistInsert p.1 p.2 m) start

/-- The inner value-to-candidate map accumulated for wire name `w`. -/
def byValueFor (cf : IfaceVal → List (String × GoAny)) (w : String)
    (choices : List IfaceVal) : Table :=
  byValueFrom [] (entriesFor cf w choices)

/-- Spec §4.2 step 3: `w` qualifies as the discriminator iff its inner map
has exactly one entry per candidate. -/
def qualifies (cf : IfaceVal → List (String × GoAny)) (w : String)
    (choices : List IfaceVal) : Prop :=
  (byValueFor cf w choices).length = choices.length

/-- Every constant-bearing wire name seen across the choices. -/
def constNamesSeen (cf : IfaceVal → List (String × GoAny))
    (choices : List IfaceVal) : List String :=
  ((choices.map (fun c => alistKeys (cf c))).flatten).dedup

theorem constFieldsLoop_nodup (fields : List FieldDesc) :
    ∀ acc res : List (String × GoAny), (alistKeys acc).Nodup →
    constFieldsLoop fields acc = .ok res → (alistKeys res).Nodup := by
  induction fields with
  | nil =>
    intro acc res hacc h
    simp only [constFieldsLoop] at h
    cases h
    exact hacc
  | cons f rest ih =>
    intro acc res hacc h
    simp only [constFieldsLoop] at h
    split at h
    · exact ih acc res hacc h
    · split at h
      · exact ih acc res hacc h
      · rename_i v heq
        split at h
        · simp at h
        · rename_i hdup
          refine ih _ res ?_ h
          rw [alistKeys_append]
          have hnm : jsonFieldName f ∉ alistKeys acc := by
            rw [mem_alistKeys_iff_find_isSome]
            simpa using hdup
          have hone : alistKeys ([(jsonFieldName f, v)] : List (String × GoAny)) =
              [jsonFieldName f] := rfl
          rw [hone, List.nodup_append]
          refine ⟨hacc, List.nodup_singleton _, ?_⟩
          intro x hx hx'
          rw [List.mem_singleton] at hx'
          subst hx'
          exact hnm hx

theorem constFields_nodup (t : TypeDesc) (res : List (String × GoAny))
    (h : constFields t = .ok res) : (alistKeys res).Nodup := by
  unfold constFields at h
  by_cases hs : t.isStruct = false
  · simp [hs] at h
  · rw [if_neg hs] at h
    exact constFieldsLoop_nodup t.fields [] res (by simp [alistKeys_nil]) h

theorem constFieldsOf_ok_typ (c : IfaceVal) (res : List (String × GoAny))
    (h : constFieldsOf c = .ok res) :
    ∃ t, c.typ = some t ∧ constFields t = .ok res := by
  unfold constFieldsOf at h
  cases ht : c.typ with
  | none => rw [ht] at h; cases h
  | some t => rw [ht] at h; exact ⟨t, rfl, h⟩

theorem constFieldsOf_not_nil (c : IfaceVal) (res : List (String × GoAny))
    (h : constFieldsOf c = .ok res) : isNil c = false := by
  obtain ⟨t, ht, _⟩ := constFieldsOf_ok_typ c res h
  simp [isNil, ht]

theorem constFieldsOf_nodup (c : IfaceVal) (res : List (String × GoAny))
    (h : constFieldsOf c = .ok res) : (alistKeys res).Nodup := by
  obtain ⟨t, _, h'⟩ := constFieldsOf_ok_typ c res h
  exact constFields_nodup t res h'

theorem addChoiceFields_cons (d : Discrims) (c : IfaceVal) (p : String × GoAny)
    (rest : List (String × GoAny)) :
    addChoiceFields d c (p :: rest) =
      addChoiceFields (discrimInsert d p.1 p.2 c) c rest := by
  simp [addChoiceFields]

theorem addChoiceFields_find (c : IfaceVal) (fl : List (String × GoAny)) :
    ∀ d : Discrims, (alistKeys fl).Nodup → ∀ w,
    alistFind w (addChoiceFields d c fl) =
      match alistFind w fl with
      | some v => some (alistInsert v c ((alistFind w d).getD []))
      | none => alistFind w d := by
  induction fl with
  | nil =>
    intro d _ w
    simp [addChoiceFields, alistFind]
  | cons p rest ih =>
    intro d hnd w
    obtain ⟨n, v⟩ := p
    simp only [alistKeys_cons, List.nodup_cons] at hnd
    rw [addChoiceFields_cons]
    by_cases hw : n = w
    · subst hw
      have hfr : alistFind n rest = none := by
        cases hfr : alistFind n rest with
        | none => rfl
        | some x =>
          exact absurd ((mem_alistKeys_iff_find_isSome n rest).mpr
            (by simp [hfr])) hnd.1
      rw [ih (discrimInsert d n v c) hnd.2 n, hfr]
      simp [alistFind, discrimInsert, alistFind_insert_self]
    · have hfind : alistFind w ((n, v) :: rest) = alistFind w rest := by
        simp [alistFind, hw]
      rw [ih (discrimInsert d n v c) hnd.2 w, hfind]
      have hd : alistFind w (discrimInsert d n v c) = alistFind w d := by
        simp [discrimInsert,
          alistFind_insert_ne w n _ d (fun hh => hw hh.symm)]
      rw [hd]

theorem addChoiceFields_find_none (c : IfaceVal) (fl : List (String × GoAny))
    (d : Discrims) (hnd : (alistKeys fl).Nodup) (w : String)
    (h : alistFind w fl = none) :
    alistFind w (addChoiceFields d c fl) = alistFind w d := by
  rw [addChoiceFields_find c fl d hnd w, h]

theorem addChoiceFields_find_some (c : IfaceVal) (fl : List (String × GoAny))
    (d : Discrims) (hnd : (alistKeys fl).Nodup) (w : String) (v : GoAny)
    (h : alistFind w fl = some v) :
    alistFind w (addChoiceFields d c fl) =
      some (alistInsert v c ((alistFind w d).getD [])) := by
  rw [addChoiceFields_find c fl d hnd w, h]

theorem addChoiceFields_keys_nodup (c : IfaceVal) (fl : List (String × GoAny)) :
    ∀ d : Discrims, (alistKeys d).Nodup →
    (alistKeys (addChoiceFields d c fl)).Nodup := by
  induction fl with
  | nil =>
    intro d hnd
    simpa [addChoiceFields] using hnd
  | cons p rest ih =>
    intro d hnd
    rw [addChoiceFields_cons]
    exact ih _ (alistKeys_insert_nodup _ _ _ hnd)

theorem entriesFor_cons_none (cf : IfaceVal → List (String × GoAny))
    (w : String) (c : IfaceVal) (rest : List IfaceVal)
    (h : alistFind w (cf c) = none) :
    entriesFor cf w (c :: rest) = entriesFor cf w rest := by
  simp [entriesFor, h]

theorem entriesFor_cons_some (cf : IfaceVal → List (String × GoAny))
    (w : String) (c : IfaceVal) (rest : List IfaceVal) (v : GoAny)
    (h : alistFind w (cf c) = some v) :
    entriesFor cf w (c :: rest) = (v, c) :: entriesFor cf w rest := by
  simp [entriesFor, h]

theorem byValueFrom_cons (start : Table) (p : GoAny × IfaceVal)
    (es : List (GoAny × IfaceVal)) :
    byValueFrom start (p :: es) = byValueFrom (alistInsert p.1 p.2 start) es := by
  simp [byValueFrom]

/-- Characterization of the discriminator tables built by `buildDiscrims`:
the entry for wire name `w` is the fold of the choices' contributions for
`w` over whatever the accumulator already held. -/
theorem buildDiscrims_find (choices : List IfaceVal)
    (cf : IfaceVal → List (String × GoAny))
    (hcf : ∀ c ∈ choices, constFieldsOf c = .ok (cf c)) :
    ∀ (i : Nat) (d0 D : Discrims), buildDiscrims i d0 choices = .ok D →
    ∀ w, alistFind w D =
      if entriesFor cf w choices = [] then alistFind w d0
      else some (byValueFrom ((alistFind w d0).getD []) (entriesFor cf w choices)) := by
  induction choices with
  | nil =>
    intro i d0 D h w
    simp only [buildDiscrims] at h
    cases h
    simp [entriesFor]
  | cons c rest ih =>
    intro i d0 D h w
    have hc : constFieldsOf c = .ok (cf c) := hcf c (by simp)
    have hrest : ∀ c' ∈ rest, constFieldsOf c' = .ok (cf c') :=
      fun c' hc' => hcf c' (by simp [hc'])
    have hnil : isNil c = false := constFieldsOf_not_nil c (cf c) hc
    simp only [buildDiscrims, hnil, Bool.false_eq_true, if_false, hc] at h
    have hnd : (alistKeys (cf c)).Nodup := constFieldsOf_nodup c (cf c) hc
    have ihD := ih hrest (i + 1) (addChoiceFields d0 c (cf c)) D h w
    cases hfc : alistFind w (cf c) with
    | none =>
      rw [entriesFor_cons_none cf w c rest hfc]
      rw [ihD, addChoiceFields_find_none c (cf c) d0 hnd w hfc]
    | some v =>
      rw [entriesFor_cons_some cf w c rest v hfc]
      rw [ihD, addChoiceFields_find_some c (cf c) d0 hnd w v hfc]
      by_cases hes : entriesFor cf w rest = []
      · simp [hes, byValueFrom]
      · simp [hes, byValueFrom_cons]

theorem buildDiscrims_keys_nodup (choices : List IfaceVal) :
    ∀ (i : Nat) (d0 D : Discrims), (alistKeys d0).Nodup →
    buildDiscrims i d0 choices = .ok D → (alistKeys D).Nodup := by
  induction choices with
  | nil =>
    intro i d0 D hnd h
    simp only [buildDiscrims] at h
    cases h
    exact hnd
  | cons c rest ih =>
    intro i d0 D hnd h
    simp only [buildDiscrims] at h
    split at h
    · cases h
    · cases hc : constFieldsOf c with
      | error e => rw [hc] at h; cases h
      | ok cfc =>
        rw [hc] at h
        exact ih (i + 1) _ D (addChoiceFields_keys_nodup c cfc d0 hnd) h

theorem buildDiscrims_total (choices : List IfaceVal)
    (cf : IfaceVal → List (String × GoAny))
    (hcf : ∀ c ∈ choices, constFieldsOf c = .ok (cf c)) :
    ∀ (i : Nat) (d0 : Discrims), ∃ D, buildDiscrims i d0 choices = .ok D := by
  induction choices with
  | nil =>
    intro i d0
    exact ⟨d0, rfl⟩
  | cons c rest ih =>
    intro i d0
    have hc : constFieldsOf c = .ok (cf c) := hcf c (by simp)
    have hnil : isNil c = false := constFieldsOf_not_nil c (cf c) hc
    obtain ⟨D, hD⟩ := ih (fun c' hc' => hcf c' (by simp [hc'])) (i + 1)
      (addChoiceFields d0 c (cf c))
    exact ⟨D, by simp only [buildDiscrims, hnil, Bool.false_eq_true, if_false, hc, hD]⟩

theorem mem_keys_buildDiscrims (choices : List IfaceVal)
    (cf : IfaceVal → List (String × GoAny))
    (hcf : ∀ c ∈ choices, constFieldsOf c = .ok (cf c))
    (D : Discrims) (h : buildDiscrims 0 [] choices = .ok D) (w : String) :
    w ∈ alistKeys D ↔ entriesFor cf w choices ≠ [] := by
  rw [mem_alistKeys_iff_find_isSome,
    buildDiscrims_find choices cf hcf 0 [] D h w]
  by_cases hes : entriesFor cf w choices = [] <;> simp [hes, alistFind]

theorem length_filterMap_lt {A B : Type} (f : A → Option B) (l : List A) (x : A)
    (hx : x ∈ l) (hfx : f x = none) : (l.filterMap f).length < l.length := by
  induction l with
  | nil => cases hx
  | cons y rest ih =>
    rcases List.mem_cons.mp hx with rfl | hx'
    · rw [List.filterMap_cons_none hfx]
      exact Nat.lt_of_le_of_lt (List.length_filterMap_le f rest) (by simp)
    · cases hfy : f y with
      | none =>
        rw [List.filterMap_cons_none hfy]
        exact Nat.lt_succ_of_lt (ih hx')
      | some b =>
        rw [List.filterMap_cons_some hfy]
        simpa using ih hx'

theorem entriesFor_length_le (cf : IfaceVal → List (String × GoAny))
    (w : String) (choices : List IfaceVal) :
    (entriesFor cf w choices).length ≤ choices.length :=
  List.length_filterMap_le _ _

theorem entriesFor_length_lt (cf : IfaceVal → List (String × GoAny))
    (w : String) (choices : List IfaceVal) (c : IfaceVal)
    (hc : c ∈ choices) (hnone : alistFind w (cf c) = none) :
    (entriesFor cf w choices).length < choices.length :=
  length_filterMap_lt _ choices c hc (by simp [hnone])

theorem byValueFrom_length_le (start : Table) (es : List (GoAny × IfaceVal)) :
    (byValueFrom start es).length ≤ start.length + es.length :=
  foldl_alistInsert_length_le es start

theorem byValueFrom_nodup_id (es : List (GoAny × IfaceVal))
    (hnd : (alistKeys es).Nodup) : byValueFrom [] es = es := by
  have := foldl_alistInsert_fresh es [] hnd (by simp [alistKeys_nil])
  simpa [byValueFrom] using this

/-- Under the hypotheses that every choice carries `w` and the constants are
pairwise distinct, the accumulated inner map for `w` is exactly the
candidate list keyed by its own constants, in order. -/
theorem byValueFor_eq_map (cf : IfaceVal → List (String × GoAny)) (w : String)
    (choices : List IfaceVal) (vof : IfaceVal → GoAny)
    (hall : ∀ c ∈ choices, alistFind w (cf c) = some (vof c))
    (hdist : choices.Pairwise (fun c1 c2 => vof c1 ≠ vof c2)) :
    byValueFor cf w choices = choices.map (fun c => (vof c, c)) := by
  have hent : entriesFor cf w choices = choices.map (fun c => (vof c, c)) := by
    induction choices with
    | nil => simp [entriesFor]
    | cons c rest ih =>
      rw [entriesFor_cons_some cf w c rest (vof c) (hall c (by simp))]
      rw [ih (fun c' hc' => hall c' (by simp [hc'])) (List.Pairwise.sublist (by simp) hdist)]
      simp
  unfold byValueFor
  rw [hent]
  apply byValueFrom_nodup_id
  have : alistKeys (choices.map (fun c => (vof c, c))) = choices.map vof := by
    simp [alistKeys, Function.comp]
  rw [this]
  simpa [List.Nodup, List.pairwise_map] using hdist

/-! selection-loop lemmas -/

theorem pickLoop_no_qualifier (n : Nat) (f : String) (acc : Table) :
    ∀ D : List (String × Table), (∀ e ∈ D, e.2.length ≠ n) →
    pickDiscrimLoop n f acc D = .ok (f, acc) := by
  intro D
  induction D with
  | nil => intro _; rfl
  | cons e rest ih =>
    intro h
    obtain ⟨name, byv⟩ := e
    have hne : byv.length ≠ n := h (name, byv) (by simp)
    simp only [pickDiscrimLoop, if_pos hne]
    exact ih (fun e he => h e (by simp [he]))

theorem pickLoop_single (n : Nat) :
    ∀ (D : List (String × Table)) (w : String) (t : Table),
    D.filter (fun e => decide (e.2.length = n)) = [(w, t)] →
    pickDiscrimLoop n "" [] D = .ok (w, t) := by
  intro D
  induction D with
  | nil => intro w t h; simp at h
  | cons e rest ih =>
    intro w t h
    obtain ⟨name, byv⟩ := e
    by_cases hq : byv.length = n
    · rw [List.filter_cons_of_pos (by simpa using hq)] at h
      rw [List.cons_eq_cons] at h
      obtain ⟨h1, h2⟩ := h
      injection h1 with hname hbyv
      subst hname
      subst hbyv
      have hrest : ∀ e ∈ rest, e.2.length ≠ n := by
        intro e he
        have := List.filter_eq_nil_iff.mp h2 e he
        simpa using this
      simp only [pickDiscrimLoop]
      rw [if_neg (not_not_intro hq), if_neg (by simp)]
      exact pickLoop_no_qualifier n _ _ rest hrest
    · rw [List.filter_cons_of_neg (by simpa using hq)] at h
      simp only [pickDiscrimLoop, if_pos hq]
      exact ih w t h

theorem pickLoop_ambiguous_from (n : Nat) :
    ∀ (D : List (String × Table)) (f : String) (acc : Table), f ≠ "" →
    (∃ e ∈ D, e.2.length = n) →
    ∃ b t, (b, t) ∈ D ∧ t.length = n ∧
      pickDiscrimLoop n f acc D = .error (.ambiguous f b) := by
  intro D
  induction D with
  | nil =>
    intro f acc hf h
    simp at h
  | cons e rest ih =>
    intro f acc hf h
    obtain ⟨name, byv⟩ := e
    by_cases hq : byv.length = n
    · refine ⟨name, byv, by simp, hq, ?_⟩
      simp only [pickDiscrimLoop]
      rw [if_neg (not_not_intro hq), if_pos hf]
    · obtain ⟨e', he', hlen⟩ := h
      have he'' : e' ∈ rest := by
        rcases List.mem_cons.mp he' with rfl | hr
        · exact absurd hlen hq
        · exact hr
      obtain ⟨b, t, hmem, hlen', heq⟩ := ih f acc hf ⟨e', he'', hlen⟩
      refine ⟨b, t, by simp [hmem], hlen', ?_⟩
      simp only [pickDiscrimLoop, if_pos hq]
      exact heq

theorem pickLoop_two (n : Nat) :
    ∀ (D : List (String × Table)) (w₁ t₁ w₂ t₂ : _),
    (alistKeys D).Nodup → ("" ∉ alistKeys D) →
    (w₁, t₁) ∈ D → (w₂, t₂) ∈ D → w₁ ≠ w₂ →
    t₁.length = n → t₂.length = n →
    ∃ a b ta tb, (a, ta) ∈ D ∧ (b, tb) ∈ D ∧ ta.length = n ∧ tb.length = n ∧
      a ≠ b ∧ pickDiscrimLoop n "" [] D = .error (.ambiguous a b) := by
  intro D
  induction D with
  | nil =>
    intro w₁ t₁ w₂ t₂ _ _ h1 _ _ _ _
    cases h1
  | cons e rest ih =>
    intro w₁ t₁ w₂ t₂ hnd hne h1 h2 hww hl1 hl2
    obtain ⟨name, byv⟩ := e
    simp only [alistKeys_cons, List.nodup_cons] at hnd
    have hname : name ≠ "" := by
      intro hh
      exact hne (by simp [alistKeys_cons, hh])
    by_cases hq : byv.length = n
    · have hsecond : ∃ e ∈ rest, e.2.length = n := by
        by_cases hh1 : (w₁, t₁) ∈ rest
        · exact ⟨(w₁, t₁), hh1, hl1⟩
        · have : (w₁, t₁) = (name, byv) := by
            rcases List.mem_cons.mp h1 with h | h
            · exact h
            · exact absurd h hh1
          have hw2r : (w₂, t₂) ∈ rest := by
            rcases List.mem_cons.mp h2 with h | h
            · injection this with ha hb
              injection h with hc hd
              exact absurd (hc.trans ha.symm) (fun hh => hww hh.symm)
            · exact h
          exact ⟨(w₂, t₂), hw2r, hl2⟩
      obtain ⟨b, t, hmem, hlen', heq⟩ :=
        pickLoop_ambiguous_from n rest name byv hname hsecond
      have hab : name ≠ b := by
        intro hh
        subst hh
        exact hnd.1 (by simpa [alistKeys] using List.mem_map_of_mem Prod.fst hmem)
      refine ⟨name, b, byv, t, by simp, by simp [hmem], hq, hlen', hab, ?_⟩
      simp only [pickDiscrimLoop]
      rw [if_neg (not_not_intro hq), if_neg (by simp)]
      exact heq
    · have hh1 : (w₁, t₁) ∈ rest := by
        rcases List.mem_cons.mp h1 with h | h
        · injection h with ha hb
          subst hb
          exact absurd hl1 hq
        · exact h
      have hh2 : (w₂, t₂) ∈ rest := by
        rcases List.mem_cons.mp h2 with h | h
        · injection h with ha hb
          subst hb
          exact absurd hl2 hq
        · exact h
      obtain ⟨a, b, ta, tb, hma, hmb, hla, hlb, hab, heq⟩ :=
        ih w₁ t₁ w₂ t₂ hnd.2 (fun hh => hne (by simp [alistKeys_cons, hh])) hh1 hh2 hww hl1 hl2
      refine ⟨a, b, ta, tb, by simp [hma], by simp [hmb], hla, hlb, hab, ?_⟩
      simp only [pickDiscrimLoop, if_pos hq]
      exact heq

theorem filter_single_of_keys_nodup (q : String × Table → Bool) :
    ∀ (D : List (String × Table)) (w : String) (t : Table),
    (alistKeys D).Nodup → (w, t) ∈ D → q (w, t) = true →
    (∀ e ∈ D, e.1 ≠ w → q e = false) →
    D.filter q = [(w, t)] := by
  intro D
  induction D with
  | nil =>
    intro w t _ hmem _ _
    cases hmem
  | cons e rest ih =>
    intro w t hnd hmem hq hothers
    obtain ⟨name, byv⟩ := e
    simp only [alistKeys_cons, List.nodup_cons] at hnd
    by_cases hn : name = w
    · subst hn
      have hhead : (name, t) = (name, byv) := by
        rcases List.mem_cons.mp hmem with h | h
        · exact h.symm ▸ rfl
        · exact absurd (by simpa [alistKeys] using List.mem_map_of_mem Prod.fst h) hnd.1
      injection hhead with _ hbyv
      subst hbyv
      rw [List.filter_cons_of_pos hq]
      have : rest.filter q = [] := by
        rw [List.filter_eq_nil_iff]
        intro e he
        have hne : e.1 ≠ name := by
          intro hh
          exact hnd.1 (hh ▸ (by simpa [alistKeys] using List.mem_map_of_mem Prod.fst he))
        simp [hothers e (by simp [he]) hne]
      rw [this]
    · have hmem' : (w, t) ∈ rest := by
        rcases List.mem_cons.mp hmem with h | h
        · injection h with ha _
          exact absurd ha.symm hn
        · exact h
      rw [List.filter_cons_of_neg (by simp [hothers (name, byv) (by simp) hn])]
      exact ih w t hnd.2 hmem' hq (fun e he hne => hothers e (by simp [he]) hne)

/-! ## Determination-level helper lemmas -/

theorem entriesFor_eq_map (cf : IfaceVal → List (String × GoAny)) (w : String)
    (choices : List IfaceVal) (vof : IfaceVal → GoAny)
    (hall : ∀ c ∈ choices, alistFind w (cf c) = some (vof c)) :
    entriesFor cf w choices = choices.map (fun c => (vof c, c)) := by
  induction choices with
  | nil => simp [entriesFor]
  | cons c rest ih =>
    rw [entriesFor_cons_some cf w c rest (vof c) (hall c (by simp))]
    rw [ih (fun c' hc' => hall c' (by simp [hc']))]
    simp

theorem entriesFor_ne_nil (cf : IfaceVal → List (String × GoAny)) (w : String)
    (choices : List IfaceVal) :
    entriesFor cf w choices ≠ [] ↔
      ∃ c ∈ choices, (alistFind w (cf c)).isSome := by
  constructor
  · intro h
    by_contra hcon
    push_neg at hcon
    refine h (List.filterMap_eq_nil_iff.mpr ?_)
    intro c hc
    have hnone : alistFind w (cf c) = none := by
      cases hfc : alistFind w (cf c) with
      | none => rfl
      | some v =>
        refine absurd ?_ (hcon c hc)
        rw [hfc]
        rfl
    simp [hnone]
  · rintro ⟨c, hc, hsome⟩ hnil
    have := List.filterMap_eq_nil_iff.mp hnil c hc
    cases hfc : alistFind w (cf c) with
    | none => rw [hfc] at hsome; simp at hsome
    | some v => rw [hfc] at this; simp at this

theorem mem_constNamesSeen (cf : IfaceVal → List (String × GoAny))
    (choices : List IfaceVal) (w : String) :
    w ∈ constNamesSeen cf choices ↔ ∃ c ∈ choices, w ∈ alistKeys (cf c) := by
  simp [constNamesSeen, List.mem_dedup, List.mem_flatten]

/-- Every entry of a built discriminator table is the accumulated inner map
of its own wire name. -/
theorem mem_discrims_eq_byValueFor (choices : List IfaceVal)
    (cf : IfaceVal → List (String × GoAny))
    (hcf : ∀ c ∈ choices, constFieldsOf c = .ok (cf c))
    (D : Discrims) (hD : buildDiscrims 0 [] choices = .ok D)
    (hndD : (alistKeys D).Nodup) (e : String × Table) (he : e ∈ D) :
    e.2 = byValueFor cf e.1 choices ∧ entriesFor cf e.1 choices ≠ [] := by
  have hfe : alistFind e.1 D = some e.2 :=
    alistFind_of_mem_nodup e.1 e.2 D hndD (by rw [Prod.mk.eta]; exact he)
  rw [buildDiscrims_find choices cf hcf 0 [] D hD e.1] at hfe
  by_cases hes : entriesFor cf e.1 choices = []
  · rw [if_pos hes] at hfe
    simp [alistFind] at hfe
  · rw [if_neg hes] at hfe
    refine ⟨?_, hes⟩
    have : (alistFind e.1 ([] : Discrims)).getD [] = [] := by simp [alistFind]
    rw [this] at hfe
    injection hfe with h
    exact h.symm

/-- The core correctness of discriminator inference: when exactly one wire
name is constant-bearing in every choice and the constants there are
pairwise distinct, `determineDiscriminator` succeeds with that field and
with the choices keyed by their own constants, in order. -/
theorem determine_unique_spec (choices : List IfaceVal)
    (cf : IfaceVal → List (String × GoAny)) (w : String)
    (vof : IfaceVal → GoAny)
    (hcf : ∀ c ∈ choices, constFieldsOf c = .ok (cf c))
    (hw : w ≠ "")
    (hall : ∀ c ∈ choices, alistFind w (cf c) = some (vof c))
    (huniq : ∀ w', (∀ c ∈ choices, (alistFind w' (cf c)).isSome) → w' = w)
    (hdist : choices.Pairwise (fun c1 c2 => vof c1 ≠ vof c2))
    (hne : choices ≠ []) :
    determineDiscriminator choices =
      .ok (w, choices.map (fun c => (vof c, c))) := by
  obtain ⟨D, hD⟩ := buildDiscrims_total choices cf hcf 0 []
  have hndD : (alistKeys D).Nodup :=
    buildDiscrims_keys_nodup choices 0 [] D (by simp [alistKeys_nil]) hD
  have hentw : entriesFor cf w choices = choices.map (fun c => (vof c, c)) :=
    entriesFor_eq_map cf w choices vof hall
  have hbyv : byValueFor cf w choices = choices.map (fun c => (vof c, c)) :=
    byValueFor_eq_map cf w choices vof hall hdist
  have hmapne : choices.map (fun c => (vof c, c)) ≠ [] := by
    simpa using hne
  have hfw : alistFind w D = some (choices.map (fun c => (vof c, c))) := by
    rw [buildDiscrims_find choices cf hcf 0 [] D hD w, if_neg (by rw [hentw]; exact hmapne)]
    have hnil : (alistFind w ([] : Discrims)).getD [] = [] := by simp [alistFind]
    rw [hnil]
    have : byValueFrom [] (entriesFor cf w choices) = byValueFor cf w choices := rfl
    rw [this, hbyv]
  have hmemw : (w, choices.map (fun c => (vof c, c))) ∈ D := alistFind_mem _ _ _ hfw
  have hothers : ∀ e ∈ D, e.1 ≠ w → ¬ (e.2.length = choices.length) := by
    intro e he hew hlen
    obtain ⟨he2, hes⟩ := mem_discrims_eq_byValueFor choices cf hcf D hD hndD e he
    have hmiss : ∃ c ∈ choices, alistFind e.1 (cf c) = none := by
      by_contra hcon
      push_neg at hcon
      refine hew (huniq e.1 ?_)
      intro c hc
      cases hfc : alistFind e.1 (cf c) with
      | none => exact absurd hfc (hcon c hc)
      | some v => simp
    obtain ⟨c, hc, hnone⟩ := hmiss
    have hlt : (entriesFor cf e.1 choices).length < choices.length :=
      entriesFor_length_lt cf e.1 choices c hc hnone
    have hle : e.2.length ≤ (entriesFor cf e.1 choices).length := by
      rw [he2]
      simpa [byValueFor] using byValueFrom_length_le [] (entriesFor cf e.1 choices)
    omega
  have hfilter := filter_single_of_keys_nodup
    (fun e => decide (e.2.length = choices.length)) D w
    (choices.map (fun c => (vof c, c))) hndD hmemw (by simp)
    (fun e he hew => by simp [hothers e he hew])
  have hpick := pickLoop_single choices.length D w
    (choices.map (fun c => (vof c, c))) hfilter
  simp only [determineDiscriminator, hD, hpick]
  rw [if_neg hw]

/-- The old (part_001) and new discriminator accumulation agree: they fail
together (on a nil choice the old code panics with a nil dereference in
`reflect` where the new code panics with the explicit message) and succeed
with the same tables. -/
theorem buildDiscrims_old_new (choices : List IfaceVal) :
    ∀ (i : Nat) (d0 : Discrims) (D : Discrims),
    buildDiscrimsOld d0 choices = .ok D ↔ buildDiscrims i d0 choices = .ok D := by
  induction choices with
  | nil =>
    intro i d0 D
    simp [buildDiscrimsOld, buildDiscrims]
  | cons c rest ih =>
    intro i d0 D
    by_cases hnil : isNil c
    · have ht : c.typ = none := by
        simpa [isNil, Option.isNone_iff_eq_none] using hnil
      constructor
      · intro h
        simp [buildDiscrimsOld, constFieldsOf, ht] at h
      · intro h
        simp [buildDiscrims, hnil] at h
    · simp only [buildDiscrimsOld, buildDiscrims, if_neg hnil]
      cases hcf : constFieldsOf c with
      | error e => simp [hcf]
      | ok cfr =>
        simp only [hcf]
        exact ih (i + 1) (addChoiceFields d0 c cfr) D

theorem determine_ok_field_ne (choices : List IfaceVal) (f : String) (b : Table)
    (h : determineDiscriminator choices = .ok (f, b)) : f ≠ "" := by
  simp only [determineDiscriminator] at h
  cases hbd : buildDiscrims 0 [] choices with
  | error e =>
    simp only [hbd] at h
    cases h
  | ok D =>
    simp only [hbd] at h
    cases hpl : pickDiscrimLoop choices.length "" [] D with
    | error e =>
      simp only [hpl] at h
      cases h
    | ok p =>
      obtain ⟨p1, p2⟩ := p
      simp only [hpl] at h
      by_cases hp : p1 = ""
      · rw [if_pos hp] at h
        cases h
      · rw [if_neg hp] at h
        injection h with h'
        injection h' with h1 _
        rw [← h1]
        exact hp

theorem decodeOld_eq_new {E I : Type} (ext : IfaceVal → JValue → Except E I)
    (field : String) (byv : Table) (raw : JValue) :
    decodeOld ext field byv raw =
      decodeDiscriminated ext field byv nilIface false raw := by
  unfold decodeOld decodeDiscriminated
  cases hfv : fieldValue raw field with
  | error e => simp [hfv]
  | ok dv =>
    cases hal : alistFind dv byv with
    | some c => simp [hfv, hal]
    | none => simp [hfv, hal]

theorem sortedKeys_congr (d : Discrims) (l : List String)
    (hnd : (alistKeys d).Nodup) (hl : l.Nodup)
    (hmem : ∀ w, w ∈ alistKeys d ↔ w ∈ l) :
    sortedKeys d = List.insertionSort (· ≤ ·) l := by
  haveI : IsAntisymm String (fun x1 x2 : String => x1 ≤ x2) :=
    ⟨fun a b h1 h2 => le_antisymm h1 h2⟩
  unfold sortedKeys
  exact List.eq_of_perm_of_sorted
    ((List.perm_insertionSort _ _).trans
      (((List.perm_ext_iff_of_nodup hnd hl).mpr hmem).trans
        (List.perm_insertionSort _ l).symm))
    (List.sorted_insertionSort _ _)
    (List.sorted_insertionSort _ _)

/-! ## Concrete example shapes (used by witnesses and counterexamples) -/

/-- A `Dog`-like candidate type: one `Const[string]` field `Type` = "dog". -/
def dogT : TypeDesc := ⟨true, [⟨"Type", "", true, some (.str "dog")⟩]⟩

/-- A `Cat`-like candidate type: one `Const[string]` field `Type` = "cat". -/
def catT : TypeDesc := ⟨true, [⟨"Type", "", true, some (.str "cat")⟩]⟩

/-- `(*Dog)(nil)`: a typed nil pointer candidate, not a nil interface. -/
def dogV : IfaceVal := ⟨some dogT, true⟩

def catV : IfaceVal := ⟨some catT, true⟩

/-- A candidate type with an `int`-typed constant 1 at wire name `t`. -/
def intAT : TypeDesc := ⟨true, [⟨"t", "", true, some (.int 1)⟩]⟩

def intBT : TypeDesc := ⟨true, [⟨"t", "", true, some (.int 2)⟩]⟩

def intAV : IfaceVal := ⟨some intAT, true⟩

def intBV : IfaceVal := ⟨some intBT, true⟩

/-- A fallback-like type with no `Const` field. -/
def noConstT : TypeDesc := ⟨true, [⟨"Data", "", true, none⟩]⟩

def noConstV : IfaceVal := ⟨some noConstT, true⟩

/-- The candidates' const-field tables, read off the embedding itself. -/
def exCf (c : IfaceVal) : List (String × GoAny) :=
  ((constFieldsOf c).toOption).getD []

def exVof (c : IfaceVal) : GoAny :=
  (alistFind "Type" (exCf c)).getD .null

/-! ## Claims -/

/-- **C1.**  For every list of candidate struct shapes in which exactly one
wire-level field name carries a constant-marker (`Const`) field in every
candidate and the constant values are pairwise distinct,
`determineDiscriminator` returns that field name together with a
value-to-candidate map that is a bijection: its size equals the candidate
count and each candidate appears under exactly its own constant value. -/
theorem c1_determine_discriminator_bijection (choices : List IfaceVal)
    (cf : IfaceVal → List (String × GoAny)) (w : String)
    (vof : IfaceVal → GoAny)
    (hcf : ∀ c ∈ choices, constFieldsOf c = .ok (cf c))
    (hw : w ≠ "")
    (hall : ∀ c ∈ choices, alistFind w (cf c) = some (vof c))
    (huniq : ∀ w', (∀ c ∈ choices, (alistFind w' (cf c)).isSome) → w' = w)
    (hdist : choices.Pairwise (fun c1 c2 => vof c1 ≠ vof c2))
    (hne : choices ≠ []) :
    ∃ byValue : Table,
      determineDiscriminator choices = .ok (w, byValue) ∧
      byValue.length = choices.length ∧
      ∀ c ∈ choices, alistFind (vof c) byValue = some c := by
  refine ⟨choices.map (fun c => (vof c, c)),
    determine_unique_spec choices cf w vof hcf hw hall huniq hdist hne,
    by simp, ?_⟩
  intro c hc
  apply alistFind_of_mem_nodup
  · have hkeys : alistKeys (choices.map (fun c => (vof c, c))) = choices.map vof := by
      simp [alistKeys, Function.comp]
    rw [hkeys]
    simpa [List.Nodup, List.pairwise_map] using hdist
  · exact List.mem_map_of_mem _ hc

/-- Witness for C1: a two-candidate dog/cat family discriminated on
`Type`. -/
theorem c1_witness :
    ∃ byValue : Table,
      determineDiscriminator [dogV, catV] = .ok ("Type", byValue) ∧
      byValue.length = 2 ∧
      ∀ c ∈ [dogV, catV], alistFind (exVof c) byValue = some c := by
  have h := c1_determine_discriminator_bijection [dogV, catV] exCf "Type" exVof
    (by decide) (by decide) (by decide)
    (fun w' hw' => by
      have h1 := hw' dogV (by simp)
      have hcf : exCf dogV = [("Type", GoAny.str "dog")] := by decide
      rw [hcf] at h1
      by_cases ht : "Type" = w'
      · exact ht.symm
      · rw [show alistFind w' [("Type", GoAny.str "dog")] =
            if "Type" = w' then some (GoAny.str "dog") else none from rfl] at h1
        rw [if_neg ht] at h1
        simp at h1)
    (by decide) (by decide)
  simpa using h

/-- The member-scanning loop finds exactly the first binding of the field
name, decoded generically. -/
theorem fieldValueLoop_eq_find (fieldName : String) (ms : List (String × JVal)) :
    fieldValueLoop fieldName ms =
      match alistFind fieldName ms with
      | some v => .ok (genericDecode v)
      | none => .error (.fieldNotFound fieldName) := by
  induction ms with
  | nil => rfl
  | cons p rest ih =>
    obtain ⟨k, v⟩ := p
    by_cases hk : k = fieldName
    · simp [fieldValueLoop, alistFind, hk]
    · simp [fieldValueLoop, alistFind, hk, ih]

/-- **C3 (counterexample).**  The claim asserts that in discriminated mode a
non-object input fails with the expected-object error *regardless of
whether a fallback was supplied*.  With a fallback supplied, the scan error
is swallowed (`if err != nil && !hasFallback`) and the whole raw value is
decoded into the fallback shape instead — here, with a codec whose fallback
shape accepts any raw value, the decode *succeeds* on the non-object input
`3`. -/
theorem c3_counterexample_fallback_swallows :
    kindOf (.num 3) ≠ .obj ∧
    decodeDiscriminated (fun (_ : IfaceVal) (raw : JValue) =>
        (.ok raw : Except String JValue))
      "Type" [(.str "dog", dogV)] dogV true (.num 3) = .ok (.num 3) := by
  exact ⟨by decide, rfl⟩

/-- **C3 (amended).**  In discriminated mode *with no fallback supplied*,
every input whose raw value is not a JSON object fails with the
expected-object input error, a failure distinguished from the
discriminator-field-not-found error (which is what an object lacking the
field produces); with a fallback supplied the scan error is instead
suppressed in favor of decoding the raw value into the fallback shape. -/
theorem c3_expected_object_no_fallback {E I : Type}
    (ext : IfaceVal → JValue → Except E I) (field : String) (byv : Table)
    (fb : IfaceVal) (raw : JValue) (hobj : kindOf raw ≠ .obj) :
    decodeDiscriminated ext field byv fb false raw =
      .error (.input (.expectedObject (kindOf raw))) ∧
    (∀ ms, alistFind field ms = none →
      decodeDiscriminated ext field byv fb false (.obj ms) =
        .error (.input (.fieldNotFound field))) ∧
    (∀ n, InputError.expectedObject (kindOf raw) ≠ .fieldNotFound n) ∧
    (decodeDiscriminated ext field byv fb true raw = decodeTarget ext fb raw) := by
  have hfv : fieldValue raw field = .error (.expectedObject (kindOf raw)) := by
    cases raw with
    | obj ms => exact absurd rfl hobj
    | null => rfl
    | bool b => rfl
    | num n => rfl
    | str s => rfl
    | arr t => rfl
  refine ⟨?_, ?_, ?_, ?_⟩
  · unfold decodeDiscriminated
    simp [hfv]
  · intro ms hms
    have hfv' : fieldValue (.obj ms) field = .error (.fieldNotFound field) := by
      have hred : fieldValue (.obj ms) field = fieldValueLoop field ms := rfl
      rw [hred, fieldValueLoop_eq_find, hms]
    unfold decodeDiscriminated
    simp [hfv']
  · intro n
    simp
  · unfold decodeDiscriminated
    simp [hfv]

/-- Witness for the amended C3 at a concrete non-object input. -/
theorem c3_witness :
    decodeDiscriminated (fun (_ : IfaceVal) (raw : JValue) =>
        (.ok raw : Except String JValue))
      "Type" [(.str "dog", dogV)] nilIface false (.num 3) =
      .error (.input (.expectedObject .num)) := by
  have h := c3_expected_object_no_fallback
    (fun (_ : IfaceVal) (raw : JValue) => (.ok raw : Except String JValue))
    "Type" [(.str "dog", dogV)] nilIface (.num 3) (by decide)
  exact h.1

/-- **C4.**  For a dispatcher's discriminated decode: when the input
object's discriminator value is not a key of the value-to-shape table, or
the discriminator field is absent from the input object, then with no
fallback the decode fails (with the unknown-discriminator-value error
listing the valid values, respectively with the field-not-found error), and
with a fallback the decode instead decodes a fresh instance of the fallback
shape from the entire original raw bytes. -/
theorem c4_unknown_or_missing_discriminator {E I : Type}
    (ext : IfaceVal → JValue → Except E I) (field : String) (byv : Table)
    (fb : IfaceVal) :
    (∀ raw dv, fieldValue raw field = .ok dv → alistFind dv byv = none →
      decodeDiscriminated ext field byv fb false raw =
        .error (.unknownValue dv (alistKeys byv))) ∧
    (∀ ms, alistFind field ms = none →
      decodeDiscriminated ext field byv fb false (.obj ms) =
        .error (.input (.fieldNotFound field))) ∧
    (∀ raw dv, fieldValue raw field = .ok dv → alistFind dv byv = none →
      decodeDiscriminated ext field byv fb true raw = decodeTarget ext fb raw) ∧
    (∀ ms, alistFind field ms = none →
      decodeDiscriminated ext field byv fb true (.obj ms) =
        decodeTarget ext fb (.obj ms)) := by
  have hmiss : ∀ ms, alistFind field ms = none →
      fieldValue (.obj ms) field = .error (.fieldNotFound field) := by
    intro ms hms
    have hred : fieldValue (.obj ms) field = fieldValueLoop field ms := rfl
    rw [hred, fieldValueLoop_eq_find, hms]
  refine ⟨?_, ?_, ?_, ?_⟩
  · intro raw dv hfv hfind
    unfold decodeDiscriminated
    simp [hfv, hfind]
  · intro ms hms
    unfold decodeDiscriminated
    simp [hmiss ms hms]
  · intro raw dv hfv hfind
    unfold decodeDiscriminated
    simp [hfv, hfind]
  · intro ms hms
    unfold decodeDiscriminated
    simp [hmiss ms hms]

/-- Witness for C4: unknown value `"fox"` and missing field, with and
without a fallback. -/
theorem c4_witness :
    decodeDiscriminated extDecodeInst "Type" [(.str "dog", dogV)] noConstV
        false (.obj [("Type", .str "fox")]) =
      .error (.unknownValue (.str "fox") [.str "dog"]) ∧
    decodeDiscriminated extDecodeInst "Type" [(.str "dog", dogV)] noConstV
        true (.obj [("Data", .str "x")]) =
      decodeTarget extDecodeInst noConstV (.obj [("Data", .str "x")]) := by
  have h := c4_unknown_or_missing_discriminator extDecodeInst "Type"
    [(.str "dog", dogV)] noConstV
  exact ⟨h.1 (.obj [("Type", .str "fox")]) (.str "fox") (by decide) (by decide),
    h.2.2.2 [("Data", .str "x")] (by decide)⟩

/-- With one or more candidates, a `determineDiscriminator` panic
propagates out of `StructsWithFallback` unchanged — the fallback is not
consulted. -/
theorem structsWithFallback_err (fb : IfaceVal) (choices : List IfaceVal)
    (e : ConfigError) (hne : choices ≠ [])
    (h : determineDiscriminator choices = .error e) :
    StructsWithFallback fb choices = .error e := by
  have hlen : choices.length ≠ 0 := by
    simpa [List.length_eq_zero] using hne
  simp only [StructsWithFallback]
  rw [if_neg (by simp [hlen])]
  cases hl : choices.length with
  | zero => exact absurd hl hlen
  | succ k => simp only [hl, h]

/-- Two ambiguous candidate types: both `F1` and `F2` qualify. -/
def ambig1T : TypeDesc :=
  ⟨true, [⟨"F1", "", true, some (.str "foo")⟩, ⟨"F2", "", true, some (.str "bar")⟩]⟩

def ambig2T : TypeDesc :=
  ⟨true, [⟨"F1", "", true, some (.str "bar")⟩, ⟨"F2", "", true, some (.str "foo")⟩]⟩

def ambig1V : IfaceVal := ⟨some ambig1T, true⟩

def ambig2V : IfaceVal := ⟨some ambig2T, true⟩

/-- **C5 (counterexample).**  The claim asserts that with a fallback
supplied, zero qualifying field names is not a construction-time failure.
But with one or more candidates, `determineDiscriminator` is called and
panics "cannot determine discriminator" before the fallback could matter:
construction with a (typed, non-nil) fallback and one constant-free
candidate fails. -/
theorem c5_counterexample_fallback_no_rescue :
    isNil dogV = false ∧
    StructsWithFallback dogV [noConstV] = .error (.cannotDetermine []) := by
  exact ⟨by decide, by decide⟩

/-- **C5 (amended).**  Dispatcher construction with one or more candidates
fails deterministically at construction time: when zero field names qualify
it fails with "cannot determine discriminator" listing every
constant-bearing field name seen, sorted — regardless of any supplied
fallback (a fallback avoids discrimination only when zero candidates are
supplied); when two or more field names qualify it fails with "ambiguous
discriminator fields" naming two distinct qualifying fields. -/
theorem c5_construction_failures (choices : List IfaceVal)
    (cf : IfaceVal → List (String × GoAny))
    (hcf : ∀ c ∈ choices, constFieldsOf c = .ok (cf c))
    (hne : choices ≠ [])
    (hnames : ∀ c ∈ choices, "" ∉ alistKeys (cf c)) :
    ((∀ w, ¬ qualifies cf w choices) → ∀ fb : IfaceVal,
      determineDiscriminator choices =
        .error (.cannotDetermine
          (List.insertionSort (· ≤ ·) (constNamesSeen cf choices))) ∧
      StructsWithFallback fb choices =
        .error (.cannotDetermine
          (List.insertionSort (· ≤ ·) (constNamesSeen cf choices)))) ∧
    (∀ w₁ w₂, w₁ ≠ w₂ → qualifies cf w₁ choices → qualifies cf w₂ choices →
      ∃ a b, a ≠ b ∧ qualifies cf a choices ∧ qualifies cf b choices ∧
        determineDiscriminator choices = .error (.ambiguous a b)) := by
  obtain ⟨D, hD⟩ := buildDiscrims_total choices cf hcf 0 []
  have hndD : (alistKeys D).Nodup :=
    buildDiscrims_keys_nodup choices 0 [] D (by simp [alistKeys_nil]) hD
  have hlen0 : choices.length ≠ 0 := by
    simpa [List.length_eq_zero] using hne
  constructor
  · intro hnq fb
    have hall : ∀ e ∈ D, e.2.length ≠ choices.length := by
      intro e he
      obtain ⟨he2, _⟩ := mem_discrims_eq_byValueFor choices cf hcf D hD hndD e he
      rw [he2]
      exact hnq e.1
    have hpick := pickLoop_no_qualifier choices.length "" [] D hall
    have hsorted : sortedKeys D =
        List.insertionSort (· ≤ ·) (constNamesSeen cf choices) := by
      apply sortedKeys_congr D (constNamesSeen cf choices) hndD
        (show (constNamesSeen cf choices).Nodup from List.nodup_dedup _)
      intro w
      rw [mem_keys_buildDiscrims choices cf hcf D hD w, mem_constNamesSeen,
        entriesFor_ne_nil]
      constructor
      · rintro ⟨c, hc, hs⟩
        exact ⟨c, hc, (mem_alistKeys_iff_find_isSome w (cf c)).mpr hs⟩
      · rintro ⟨c, hc, hm⟩
        exact ⟨c, hc, (mem_alistKeys_iff_find_isSome w (cf c)).mp hm⟩
    have hdet : determineDiscriminator choices =
        .error (.cannotDetermine
          (List.insertionSort (· ≤ ·) (constNamesSeen cf choices))) := by
      simp only [determineDiscriminator, hD, hpick]
      rw [if_pos trivial, hsorted]
    exact ⟨hdet, structsWithFallback_err fb choices _ hne hdet⟩
  · intro w₁ w₂ hww hq1 hq2
    have hmem : ∀ w, qualifies cf w choices →
        (w, byValueFor cf w choices) ∈ D := by
      intro w hq
      have hes : entriesFor cf w choices ≠ [] := by
        intro h0
        have hempty : byValueFor cf w choices = [] := by
          simp [byValueFor, h0, byValueFrom]
        rw [qualifies, hempty] at hq
        simp at hq
        exact hlen0 hq.symm
      have hfw : alistFind w D = some (byValueFor cf w choices) := by
        rw [buildDiscrims_find choices cf hcf 0 [] D hD w, if_neg hes]
        have hnil : (alistFind w ([] : Discrims)).getD [] = [] := by
          simp [alistFind]
        rw [hnil]
        rfl
      exact alistFind_mem _ _ _ hfw
    have hDne : "" ∉ alistKeys D := by
      intro hmem0
      rw [mem_keys_buildDiscrims choices cf hcf D hD, entriesFor_ne_nil] at hmem0
      obtain ⟨c, hc, hs⟩ := hmem0
      exact hnames c hc ((mem_alistKeys_iff_find_isSome _ _).mpr hs)
    obtain ⟨a, b, ta, tb, hma, hmb, hla, hlb, hab, heq⟩ :=
      pickLoop_two choices.length D w₁ (byValueFor cf w₁ choices) w₂
        (byValueFor cf w₂ choices) hndD hDne (hmem w₁ hq1) (hmem w₂ hq2)
        hww hq1 hq2
    have hqa : qualifies cf a choices := by
      obtain ⟨ha2, _⟩ := mem_discrims_eq_byValueFor choices cf hcf D hD hndD (a, ta) hma
      rw [qualifies, ← ha2]
      exact hla
    have hqb : qualifies cf b choices := by
      obtain ⟨hb2, _⟩ := mem_discrims_eq_byValueFor choices cf hcf D hD hndD (b, tb) hmb
      rw [qualifies, ← hb2]
      exact hlb
    refine ⟨a, b, hab, hqa, hqb, ?_⟩
    simp only [determineDiscriminator, hD, heq]

/-- Witness for the amended C5: an ambiguous two-candidate family in which
both `F1` and `F2` qualify. -/
theorem c5_witness :
    ∃ a b, a ≠ b ∧ qualifies exCf a [ambig1V, ambig2V] ∧
      qualifies exCf b [ambig1V, ambig2V] ∧
      determineDiscriminator [ambig1V, ambig2V] = .error (.ambiguous a b) :=
  (c5_construction_failures [ambig1V, ambig2V] exCf (by decide) (by decide)
    (by decide)).2 "F1" "F2" (by decide) (by unfold qualifies; decide)
    (by unfold qualifies; decide)

/-- **C6.**  For every `Const[T, S]` marker (with its constant `val` as
extracted by `Value()`) and every input, `UnmarshalJSON` succeeds if and
only if the input decodes via the external codec to a `T`-typed value equal
to `val`; on inequality it fails with an error carrying both the decoded
(got) and expected (want) values, and on a failed typed decode it fails
with the codec's error. -/
theorem c6_const_unmarshal_iff (T : PrimTy) (S : ConstStructDesc) (val : GoAny)
    (hval : constValue T S = .ok val) (data : JValue) :
    (constUnmarshalJSON T val data = .ok () ↔ typedDecode T data = some val) ∧
    (∀ got, typedDecode T data = some got → got ≠ val →
      constUnmarshalJSON T val data = .error (.mismatch got val)) ∧
    (typedDecode T data = none →
      constUnmarshalJSON T val data = .error .codec) := by
  refine ⟨⟨?_, ?_⟩, ?_, ?_⟩
  · intro h
    simp only [constUnmarshalJSON] at h
    cases hd : typedDecode T data with
    | none =>
      simp only [hd] at h
      cases h
    | some got =>
      simp only [hd] at h
      by_cases hg : got = val
      · rw [hg]
      · rw [if_neg hg] at h
        cases h
  · intro h
    simp only [constUnmarshalJSON, h]
    simp
  · intro got hgot hne
    simp only [constUnmarshalJSON, hgot]
    rw [if_neg hne]
  · intro h
    simp only [constUnmarshalJSON, h]

/-- Witness for C6: `Const[string, struct{string const:"foo"}]` accepts
`"foo"` and rejects `"bar"` with both values in the error. -/
theorem c6_witness :
    constUnmarshalJSON .str (.str "foo") (.str "foo") = .ok () ∧
    constUnmarshalJSON .str (.str "foo") (.str "bar") =
      .error (.mismatch (.str "bar") (.str "foo")) := by
  have h1 := c6_const_unmarshal_iff .str ⟨true, [(.str, some "foo")]⟩
    (.str "foo") (by decide) (.str "foo")
  have h2 := c6_const_unmarshal_iff .str ⟨true, [(.str, some "foo")]⟩
    (.str "foo") (by decide) (.str "bar")
  exact ⟨h1.1.mpr (by decide), h2.2.1 (.str "bar") (by decide) (by decide)⟩

/-- Every run of the discriminated-mode closure either leaves the
destination slot untouched and reports an error, or writes exactly one
fresh instance and reports success. -/
theorem unmarshalDiscrimInto_outcomes {E I : Type}
    (ext : IfaceVal → JValue → Except E I) (field : String) (byv : Table)
    (fb : IfaceVal) (hfb : Bool) (res : Except E JValue) (dst : Option I) :
    (∃ e, unmarshalDiscrimInto ext field byv fb hfb res dst = (dst, some e)) ∨
    (∃ i, unmarshalDiscrimInto ext field byv fb hfb res dst = (some i, none)) := by
  cases res with
  | error e => exact .inl ⟨.read e, rfl⟩
  | ok raw =>
    cases hfv : fieldValue raw field with
    | error e =>
      cases hfb with
      | false =>
        exact .inl ⟨.input e, by simp [unmarshalDiscrimInto, hfv]⟩
      | true =>
        cases hext : ext fb raw with
        | error e' =>
          exact .inl ⟨.codec e', by simp [unmarshalDiscrimInto, hfv, hext]⟩
        | ok zero =>
          exact .inr ⟨zero, by simp [unmarshalDiscrimInto, hfv, hext]⟩
    | ok dv =>
      cases hal : alistFind dv byv with
      | some choice =>
        cases hext : ext choice raw with
        | error e' =>
          exact .inl ⟨.codec e', by simp [unmarshalDiscrimInto, hfv, hal, hext]⟩
        | ok zero =>
          exact .inr ⟨zero, by simp [unmarshalDiscrimInto, hfv, hal, hext]⟩
      | none =>
        cases hfb with
        | false =>
          exact .inl ⟨.unknownValue dv (alistKeys byv),
            by simp [unmarshalDiscrimInto, hfv, hal]⟩
        | true =>
          cases hext : ext fb raw with
          | error e' =>
            exact .inl ⟨.codec e', by simp [unmarshalDiscrimInto, hfv, hal, hext]⟩
          | ok zero =>
            exact .inr ⟨zero, by simp [unmarshalDiscrimInto, hfv, hal, hext]⟩

/-- **C7.**  Every decode call through a produced unmarshaler is atomic
with respect to its destination slot `*src`: on every failure path (read
error, discriminator-scan error, unknown value, shape-decode error) the
slot is left completely unchanged, and on full success it is assigned
exactly once with the decoded instance; this holds in both discriminated
and passthrough modes. -/
theorem c7_decode_atomicity {E I : Type}
    (ext : IfaceVal → JValue → Except E I) (field : String) (byv : Table)
    (fb : IfaceVal) (hfb : Bool) :
    (∀ (res : Except E JValue) (dst : Option I),
      (unmarshalDiscrimInto ext field byv fb hfb res dst).2.isSome →
      (unmarshalDiscrimInto ext field byv fb hfb res dst).1 = dst) ∧
    (∀ (res : Except E JValue) (dst : Option I),
      (unmarshalDiscrimInto ext field byv fb hfb res dst).2 = none →
      ∃ i, (unmarshalDiscrimInto ext field byv fb hfb res dst).1 = some i) ∧
    (∀ (decodeResult : Except E I) (dst : Option I),
      ((unmarshalPassthroughInto decodeResult dst).2.isSome →
        (unmarshalPassthroughInto decodeResult dst).1 = dst) ∧
      ((unmarshalPassthroughInto decodeResult dst).2 = none →
        ∃ i, (unmarshalPassthroughInto decodeResult dst).1 = some i)) := by
  refine ⟨?_, ?_, ?_⟩
  · intro res dst h
    rcases unmarshalDiscrimInto_outcomes ext field byv fb hfb res dst with
      ⟨e, he⟩ | ⟨i, hi⟩
    · rw [he]
    · rw [hi] at h
      simp at h
  · intro res dst h
    rcases unmarshalDiscrimInto_outcomes ext field byv fb hfb res dst with
      ⟨e, he⟩ | ⟨i, hi⟩
    · rw [he] at h
      simp at h
    · exact ⟨i, by rw [hi]⟩
  · intro dres dst
    cases dres with
    | error e =>
      exact ⟨fun _ => rfl, fun h => by simp [unmarshalPassthroughInto] at h⟩
    | ok zero =>
      exact ⟨fun h => by simp [unmarshalPassthroughInto] at h,
        fun _ => ⟨zero, rfl⟩⟩

/-- Witness for C7: a failed `ReadValue` leaves a previously populated slot
unchanged, and a successful decode populates the slot. -/
theorem c7_witness :
    (unmarshalDiscrimInto
      (fun (_ : IfaceVal) (r : JValue) => (.ok r : Except String JValue))
      "Type" [(.str "dog", dogV)] nilIface false
      (.error "boom") (some (.num 0))).1 = some (.num 0) ∧
    (∃ i, (unmarshalDiscrimInto
      (fun (_ : IfaceVal) (r : JValue) => (.ok r : Except String JValue))
      "Type" [(.str "dog", dogV)] nilIface false
      (.ok (.obj [("Type", .str "dog")])) none).1 = some i) := by
  have h := c7_decode_atomicity
    (fun (_ : IfaceVal) (r : JValue) => (.ok r : Except String JValue))
    "Type" [(.str "dog", dogV)] nilIface false
  exact ⟨h.1 (.error "boom") (some (.num 0)) (by decide),
    h.2.1 (.ok (.obj [("Type", .str "dog")])) none (by decide)⟩

/-- **C8.**  `Const[T, S].Value()` extracts the constant from the single
field of the identity struct `S`: for the string kind the `const` tag
literal is taken verbatim, and for every other kind the literal is decoded
with the ordinary JSON decoding rules; a non-struct `S`, an `S` with other
than one field, a field type different from `T`, a missing `const` tag, or
a literal that fails to decode as `T` each yield a fatal configuration
error (the `ConfigError` type modeling the Go panic) rather than a
decode-time input error. -/
theorem c8_const_value_extraction (T : PrimTy) (S : ConstStructDesc) :
    (∀ v, constValue T S = .ok v ↔
      (S.isStruct = true ∧ ∃ tag, S.fields = [(T, some tag)] ∧
        ((T = .str ∧ v = .str tag) ∨
         (T ≠ .str ∧ decodeConstTag T tag = some v)))) ∧
    (S.isStruct = false → constValue T S = .error .constNotStruct) ∧
    (S.fields.length ≠ 1 → S.isStruct = true →
      constValue T S = .error .constNotStruct) ∧
    (∀ fT tag, S.fields = [(fT, tag)] → S.isStruct = true → fT ≠ T →
      constValue T S = .error .constFieldTypeMismatch) ∧
    (S.fields = [(T, none)] → S.isStruct = true →
      constValue T S = .error .constNoTag) ∧
    (∀ tag, S.fields = [(T, some tag)] → S.isStruct = true → T ≠ .str →
      decodeConstTag T tag = none →
      constValue T S = .error (.malformedConstTag tag)) := by
  refine ⟨?_, ?_, ?_, ?_, ?_, ?_⟩
  · intro v
    constructor
    · intro h
      simp only [constValue, makeConstInfo] at h
      by_cases hs : S.isStruct = false
      · rw [if_pos hs] at h
        cases h
      · rw [if_neg hs] at h
        cases hf : S.fields with
        | nil =>
          simp only [hf] at h
          cases h
        | cons p rest =>
          cases rest with
          | cons q r =>
            simp only [hf] at h
            cases h
          | nil =>
            obtain ⟨fT, tag⟩ := p
            simp only [hf] at h
            by_cases hft : fT ≠ T
            · rw [if_pos hft] at h
              cases h
            · rw [if_neg hft] at h
              push_neg at hft
              subst hft
              cases tag with
              | none => cases h
              | some lit =>
                have h2 : (if fT = PrimTy.str then Except.ok (GoAny.str lit)
                    else match decodeConstTag fT lit with
                      | none => Except.error (ConfigError.malformedConstTag lit)
                      | some v => Except.ok v) = Except.ok v := h
                by_cases hT : fT = .str
                · rw [if_pos hT] at h2
                  injection h2 with hv
                  exact ⟨by simpa using hs, lit, rfl, .inl ⟨hT, hv.symm⟩⟩
                · rw [if_neg hT] at h2
                  cases hdec : decodeConstTag fT lit with
                  | none =>
                    simp only [hdec] at h2
                    cases h2
                  | some v' =>
                    simp only [hdec] at h2
                    injection h2 with hv
                    exact ⟨by simpa using hs, lit, rfl,
                      .inr ⟨hT, by rw [hdec, hv]⟩⟩
    · rintro ⟨hs, tag, hf, hcase⟩
      simp only [constValue, makeConstInfo, hf]
      rw [if_neg (by simp [hs])]
      rw [if_neg (by simp)]
      rcases hcase with ⟨hT, hv⟩ | ⟨hT, hdec⟩
      · rw [if_pos hT, hv]
      · rw [if_neg hT, hdec]
  · intro hs
    simp only [constValue, makeConstInfo]
    rw [if_pos hs]
  · intro hlen hs
    simp only [constValue, makeConstInfo]
    rw [if_neg (by simp [hs])]
    cases hf : S.fields with
    | nil => rfl
    | cons p rest =>
      cases rest with
      | nil =>
        rw [hf] at hlen
        simp at hlen
      | cons q r => rfl
  · intro fT tag hf hs hft
    simp only [constValue, makeConstInfo, hf]
    rw [if_neg (by simp [hs]), if_pos hft]
  · intro hf hs
    simp only [constValue, makeConstInfo, hf]
    rw [if_neg (by simp [hs]), if_neg (by simp)]
  · intro tag hf hs hT hdec
    simp only [constValue, makeConstInfo, hf]
    rw [if_neg (by simp [hs]), if_neg (by simp), if_neg hT, hdec]

/-- Witness for C8: an `int` constant decodes its tag literal `"42"` with
the JSON rules, a string constant takes its tag verbatim, and a non-struct
`S` is a configuration error. -/
theorem c8_witness :
    constValue .int ⟨true, [(.int, some "42")]⟩ = .ok (.int 42) ∧
    constValue .str ⟨true, [(.str, some "foo")]⟩ = .ok (.str "foo") ∧
    constValue .int ⟨false, [(.int, some "42")]⟩ = .error .constNotStruct := by
  refine ⟨?_, ?_, ?_⟩
  · exact (c8_const_value_extraction .int ⟨true, [(.int, some "42")]⟩).1
      (.int 42) |>.mpr ⟨rfl, "42", rfl, .inr ⟨by decide, by decide⟩⟩
  · exact (c8_const_value_extraction .str ⟨true, [(.str, some "foo")]⟩).1
      (.str "foo") |>.mpr ⟨rfl, "foo", rfl, .inl ⟨rfl, rfl⟩⟩
  · exact (c8_const_value_extraction .int ⟨false, [(.int, some "42")]⟩).2.1 rfl

/-- `constFields`' loop can only panic about duplicate wire names. -/
theorem constFieldsLoop_error_shape (fields : List FieldDesc) :
    ∀ acc e, constFieldsLoop fields acc = .error e →
      ∃ n, e = .duplicateJSONName n := by
  induction fields with
  | nil =>
    intro acc e h
    simp [constFieldsLoop] at h
  | cons f rest ih =>
    intro acc e h
    simp only [constFieldsLoop] at h
    split at h
    · exact ih acc e h
    · split at h
      · exact ih acc e h
      · split at h
        · injection h with h'
          exact ⟨_, h'.symm⟩
        · exact ih _ e h

theorem constFieldsOf_error_shape (c : IfaceVal) (e : ConfigError)
    (h : constFieldsOf c = .error e) :
    e = .nilTypeDereference ∨ e = .notStruct ∨ ∃ n, e = .duplicateJSONName n := by
  unfold constFieldsOf at h
  cases hct : c.typ with
  | none =>
    rw [hct] at h
    injection h with h'
    exact .inl h'.symm
  | some t =>
    rw [hct] at h
    have h2 : constFields t = .error e := h
    unfold constFields at h2
    split at h2
    · injection h2 with h'
      exact .inr (.inl h'.symm)
    · exact .inr (.inr (constFieldsLoop_error_shape t.fields [] e h2))

/-- The `argument %d is nil` panic fires only when some choice is a nil
interface value: a typed nil pointer never triggers it. -/
theorem buildDiscrims_nilArgument (choices : List IfaceVal) :
    ∀ (i : Nat) (acc : Discrims) (j : Nat),
    buildDiscrims j acc choices = .error (.nilArgument i) →
      ∃ c ∈ choices, c.typ = none := by
  induction choices with
  | nil =>
    intro i acc j h
    simp [buildDiscrims] at h
  | cons c rest ih =>
    intro i acc j h
    simp only [buildDiscrims] at h
    split at h
    · rename_i hnil
      exact ⟨c, by simp, by simpa [isNil, Option.isNone_iff_eq_none] using hnil⟩
    · cases hcf : constFieldsOf c with
      | error e =>
        rw [hcf] at h
        injection h with h'
        rcases constFieldsOf_error_shape c e hcf with h1 | h1 | ⟨n, h1⟩ <;>
          subst h1 <;> cases h'
      | ok cfr =>
        rw [hcf] at h
        obtain ⟨c', hc', ht⟩ := ih i _ (j + 1) h
        exact ⟨c', by simp [hc'], ht⟩

theorem pickLoop_error_shape (n : Nat) :
    ∀ (D : List (String × Table)) (f : String) (acc : Table) (e : ConfigError),
    pickDiscrimLoop n f acc D = .error e → ∃ a b, e = .ambiguous a b := by
  intro D
  induction D with
  | nil =>
    intro f acc e h
    simp [pickDiscrimLoop] at h
  | cons p rest ih =>
    intro f acc e h
    obtain ⟨name, byv⟩ := p
    simp only [pickDiscrimLoop] at h
    split at h
    · exact ih f acc e h
    · split at h
      · injection h with h'
        exact ⟨f, name, h'.symm⟩
      · exact ih name byv e h

theorem determine_nilArgument (choices : List IfaceVal) (i : Nat)
    (h : determineDiscriminator choices = .error (.nilArgument i)) :
    ∃ c ∈ choices, c.typ = none := by
  simp only [determineDiscriminator] at h
  cases hbd : buildDiscrims 0 [] choices with
  | error e =>
    simp only [hbd] at h
    injection h with h'
    exact buildDiscrims_nilArgument choices i [] 0 (h' ▸ hbd)
  | ok D =>
    simp only [hbd] at h
    cases hpl : pickDiscrimLoop choices.length "" [] D with
    | error e =>
      simp only [hpl] at h
      injection h with h'
      obtain ⟨a, b, he⟩ := pickLoop_error_shape choices.length D "" [] e hpl
      rw [he] at h'
      cases h'
    | ok p =>
      obtain ⟨p1, p2⟩ := p
      simp only [hpl] at h
      by_cases hp : p1 = ""
      · rw [if_pos hp] at h
        injection h with h'
        cases h'
      · rw [if_neg hp] at h
        cases h

/-- **C10.**  The nil-candidate check rejects only nil interface values: a
typed nil pointer (non-nil interface holding a nil pointer) is accepted, is
inspected purely through its type, and never triggers the
`argument %d is nil` construction-time panic; likewise a fallback is
considered absent exactly when the fallback argument is a nil interface
value, so a typed nil pointer counts as a present fallback. -/
theorem c10_typed_nil_accepted :
    (∀ x : IfaceVal, isNil x = true ↔ x.typ = none) ∧
    (∀ (t : TypeDesc) (pn : Bool), isNil ⟨some t, pn⟩ = false) ∧
    (∀ (t : TypeDesc) (pn pn' : Bool),
      constFieldsOf ⟨some t, pn⟩ = constFieldsOf ⟨some t, pn'⟩) ∧
    (∀ (choices : List IfaceVal) (i : Nat),
      determineDiscriminator choices = .error (.nilArgument i) →
      ∃ c ∈ choices, c.typ = none) ∧
    (∀ (t : TypeDesc) (pn : Bool),
      StructsWithFallback ⟨some t, pn⟩ [] = .ok (.passthrough ⟨some t, pn⟩)) ∧
    (∀ pn : Bool, StructsWithFallback ⟨none, pn⟩ [] = .error .noChoices) := by
  refine ⟨?_, ?_, ?_, ?_, ?_, ?_⟩
  · intro x
    simp [isNil, Option.isNone_iff_eq_none]
  · intro t pn
    simp [isNil]
  · intro t pn pn'
    rfl
  · exact fun choices i h => determine_nilArgument choices i h
  · intro t pn
    simp [StructsWithFallback, isNil]
  · intro pn
    simp [StructsWithFallback, isNil]

/-- Witness for C10: `(*Dog)(nil)`-style values are accepted as fallback,
and the nil-argument panic on a genuine nil interface implicates a nil
interface choice. -/
theorem c10_witness :
    isNil ⟨some dogT, true⟩ = false ∧
    StructsWithFallback ⟨some dogT, true⟩ [] = .ok (.passthrough ⟨some dogT, true⟩) ∧
    (∃ c ∈ [nilIface], c.typ = none) := by
  refine ⟨c10_typed_nil_accepted.2.1 dogT true,
    c10_typed_nil_accepted.2.2.2.2.1 dogT true,
    c10_typed_nil_accepted.2.2.2.1 [nilIface] 0 (by decide)⟩

/-- The old `Structs` succeeds with exactly the pairs that
`determineDiscriminator` produces. -/
theorem structsOld_ok_iff (choices : List IfaceVal) (hne : choices ≠ [])
    (f : String) (b : Table) :
    structsOld choices = .ok (f, b) ↔
      determineDiscriminator choices = .ok (f, b) := by
  have hlen : choices.length ≠ 0 := by
    simpa [List.length_eq_zero] using hne
  simp only [structsOld, determineDiscriminator]
  rw [if_neg hlen]
  cases hold : buildDiscrimsOld [] choices with
  | error e =>
    cases hnew : buildDiscrims 0 [] choices with
    | error e' => simp
    | ok D =>
      exact absurd ((buildDiscrims_old_new choices 0 [] D).mpr hnew)
        (by simp [hold])
  | ok D =>
    have hnew : buildDiscrims 0 [] choices = .ok D :=
      (buildDiscrims_old_new choices 0 [] D).mp hold
    simp only [hnew]

/-- `Structs` is `StructsWithFallback` with the nil fallback: with a
nonempty candidate list it is the discriminated unmarshaler over
`determineDiscriminator`'s result. -/
theorem structs_eq (choices : List IfaceVal) (hne : choices ≠ []) :
    Structs choices =
      match determineDiscriminator choices with
      | .error e => .error e
      | .ok (f, b) => .ok (.discriminated f b nilIface false) := by
  have hlen : choices.length ≠ 0 := by
    simpa [List.length_eq_zero] using hne
  simp only [Structs, StructsWithFallback]
  rw [if_neg (by simp [hlen, isNil, nilIface])]
  cases hl : choices.length with
  | zero => exact absurd hl hlen
  | succ k =>
    simp only [hl]
    cases hd : determineDiscriminator choices with
    | error e => simp
    | ok p =>
      obtain ⟨f, b⟩ := p
      have hf : f ≠ "" := determine_ok_field_ne choices f b hd
      simp [if_neg hf, isNil, nilIface]

/-- **C9.**  The older fallback-less `Structs` (part_001) and the current
`Structs` (which delegates to `StructsWithFallback` with the nil fallback)
are equivalent: for every non-empty candidate list they infer the same
discriminator field and value-to-candidate table (and fail together at
construction time when they fail), and their produced decode routines
yield the same result or error on every input. -/
theorem c9_old_new_equivalence (choices : List IfaceVal) (hne : choices ≠ []) :
    (∀ (f : String) (b : Table), structsOld choices = .ok (f, b) ↔
      Structs choices = .ok (.discriminated f b nilIface false)) ∧
    ((∃ e, structsOld choices = .error e) ↔ (∃ e, Structs choices = .error e)) ∧
    (∀ (E I : Type) (ext : IfaceVal → JValue → Except E I) (f : String)
      (b : Table) (raw : JValue),
      decodeOld ext f b raw = decodeDiscriminated ext f b nilIface false raw) := by
  have hst := structs_eq choices hne
  have hok : ∀ (f : String) (b : Table), structsOld choices = .ok (f, b) ↔
      Structs choices = .ok (.discriminated f b nilIface false) := by
    intro f b
    rw [structsOld_ok_iff choices hne f b, hst]
    cases hd : determineDiscriminator choices with
    | error e => simp
    | ok p =>
      obtain ⟨f', b'⟩ := p
      simp
  refine ⟨hok, ?_, fun E I ext f b raw => decodeOld_eq_new ext f b raw⟩
  have hexc : ∀ {E A : Type} (x : Except E A),
      (∃ e, x = .error e) ↔ ¬(∃ a, x = .ok a) := by
    intro E A x
    cases x with
    | error e => simp
    | ok a => simp
  rw [hexc (structsOld choices), hexc (Structs choices)]
  apply not_congr
  constructor
  · rintro ⟨⟨f, b⟩, ha⟩
    exact ⟨.discriminated f b nilIface false, (hok f b).mp ha⟩
  · rintro ⟨u, hu⟩
    rw [hst] at hu
    cases hd : determineDiscriminator choices with
    | error e =>
      rw [hd] at hu
      cases hu
    | ok p =>
      obtain ⟨f, b⟩ := p
      rw [hd] at hu
      exact ⟨(f, b), (structsOld_ok_iff choices hne f b).mpr hd⟩

/-- Witness for C9 at the dog/cat family and a concrete decode input. -/
theorem c9_witness :
    (structsOld [dogV, catV] =
        .ok ("Type", [(.str "dog", dogV), (.str "cat", catV)]) ↔
      Structs [dogV, catV] = .ok (.discriminated "Type"
        [(.str "dog", dogV), (.str "cat", catV)] nilIface false)) ∧
    decodeOld extDecodeInst "Type" [(.str "dog", dogV)] (.num 3) =
      decodeDiscriminated extDecodeInst "Type" [(.str "dog", dogV)]
        nilIface false (.num 3) := by
  have h := c9_old_new_equivalence [dogV, catV] (by decide)
  exact ⟨h.1 "Type" [(.str "dog", dogV), (.str "cat", catV)],
    h.2.2 String Instance extDecodeInst "Type" [(.str "dog", dogV)] (.num 3)⟩

/-! ## Round-trip analysis (C2) -/

/-- A `Const` field re-validates its own marshaled form successfully. -/
theorem decodeConstCheck_encode (v : GoAny) :
    decodeConstCheck v (encodeGoAny v) = true := by
  cases v <;> simp [decodeConstCheck, encodeGoAny]

theorem sortByKey_pairwise_le (l : List (String × JVal)) :
    List.Pairwise (fun a b => a.1 ≤ b.1) (sortByKey l) := by
  haveI : IsTotal (String × JVal) (fun a b : String × JVal => a.1 ≤ b.1) :=
    ⟨fun a b => le_total a.1 b.1⟩
  haveI : IsTrans (String × JVal) (fun a b : String × JVal => a.1 ≤ b.1) :=
    ⟨fun a b c h1 h2 => le_trans h1 h2⟩
  exact List.sorted_insertionSort _ l

theorem sortByKey_perm (l : List (String × JVal)) : (sortByKey l).Perm l :=
  List.perm_insertionSort _ l

theorem eq_of_perm_of_pairwise_lt (l₁ l₂ : List (String × JVal))
    (hperm : l₁.Perm l₂)
    (h₁ : List.Pairwise (fun a b => a.1 < b.1) l₁)
    (h₂ : List.Pairwise (fun a b => a.1 < b.1) l₂) : l₁ = l₂ := by
  haveI : IsAntisymm (String × JVal) (fun a b : String × JVal => a.1 < b.1) :=
    ⟨fun a b hab hba => absurd hba (lt_asymm hab)⟩
  exact List.eq_of_perm_of_sorted hperm h₁ h₂

theorem pairwise_lt_of_le_nodup (l : List (String × JVal))
    (hle : List.Pairwise (fun a b => a.1 ≤ b.1) l)
    (hnd : (alistKeys l).Nodup) :
    List.Pairwise (fun a b => a.1 < b.1) l := by
  have hne : List.Pairwise (fun a b : String × JVal => a.1 ≠ b.1) l := by
    simpa [alistKeys, List.Nodup, List.pairwise_map] using hnd
  exact (hle.and hne).imp (fun h => lt_of_le_of_ne h.1 h.2)

/-- **C2 (counterexample).**  The claim asserts the marshal-then-decode
round trip for *every* candidate of a successfully built dispatcher.  With
integer-typed constants the dispatcher builds fine (table keyed by Go `int`
values), but the marshaled discriminator generically decodes back as a Go
`float64`, which is a different dynamic type, so the table lookup misses
and the decode of a marshaled instance fails with "unknown discriminator
value" instead of returning the instance. -/
theorem c2_counterexample_int_const :
    determineDiscriminator [intAV, intBV] =
      .ok ("t", [(.int 1, intAV), (.int 2, intBV)]) ∧
    marshalInst ⟨intAT, []⟩ = .obj [("t", .num 1)] ∧
    decodeDiscriminated extDecodeInst "t" [(.int 1, intAV), (.int 2, intBV)]
      nilIface false (marshalInst ⟨intAT, []⟩) =
      .error (.unknownValue (.float 1) [.int 1, .int 2]) := by
  exact ⟨by decide, by decide, by decide⟩

/-- **C2 (amended).**  For every candidate of a dispatcher built over all
candidates *whose constant value survives the generic decode of its encoded
form* (true in particular for all string- and bool-valued discriminators,
false for Go `int` ones), marshaling an instance and decoding the bytes
through the dispatcher yields the original instance back; and the decode
result is the same for every reordering of the JSON object's members,
because the entire original raw span is handed to the shape-specific
decoder after the discriminator is located. -/
theorem c2_roundtrip_order_independent (choices : List IfaceVal)
    (cf : IfaceVal → List (String × GoAny)) (w : String)
    (vof : IfaceVal → GoAny)
    (hcf : ∀ c ∈ choices, constFieldsOf c = .ok (cf c))
    (hw : w ≠ "")
    (hall : ∀ c ∈ choices, alistFind w (cf c) = some (vof c))
    (huniq : ∀ w', (∀ c ∈ choices, (alistFind w' (cf c)).isSome) → w' = w)
    (hdist : choices.Pairwise (fun c1 c2 => vof c1 ≠ vof c2))
    (hne : choices ≠ [])
    (c : IfaceVal) (hc : c ∈ choices) (t : TypeDesc) (ht : c.typ = some t)
    (hstable : genericDecode (encodeGoAny (vof c)) = vof c)
    (inst : Instance) (hit : inst.typ = t)
    (hsorted : List.Pairwise (fun a b => a.1 < b.1) inst.others)
    (hdisj : ∀ p ∈ inst.others, alistFind p.1 (cf c) = none)
    (fbv : IfaceVal) (hfb : Bool) :
    determineDiscriminator choices =
      .ok (w, choices.map (fun c => (vof c, c))) ∧
    marshalInst inst =
      .obj ((cf c).map (fun p => (p.1, encodeGoAny p.2)) ++ inst.others) ∧
    (∀ ms' : List (String × JVal),
      ms'.Perm ((cf c).map (fun p => (p.1, encodeGoAny p.2)) ++ inst.others) →
      decodeDiscriminated extDecodeInst w (choices.map (fun c => (vof c, c)))
        fbv hfb (.obj ms') = .ok inst) ∧
    decodeDiscriminated extDecodeInst w (choices.map (fun c => (vof c, c)))
      fbv hfb (marshalInst inst) = .ok inst := by
  have hdet := determine_unique_spec choices cf w vof hcf hw hall huniq hdist hne
  have hcft : constFields t = .ok (cf c) := by
    have hh := hcf c hc
    unfold constFieldsOf at hh
    rw [ht] at hh
    exact hh
  have hndcf : (alistKeys (cf c)).Nodup := constFields_nodup t (cf c) hcft
  have hmar : marshalInst inst =
      .obj ((cf c).map (fun p => (p.1, encodeGoAny p.2)) ++ inst.others) := by
    unfold marshalInst
    rw [hit, hcft]
  have hndoth : (alistKeys inst.others).Nodup := by
    have hpw : List.Pairwise (fun a b : String × JVal => a.1 ≠ b.1) inst.others :=
      hsorted.imp (fun h => ne_of_lt h)
    simpa [alistKeys, List.Nodup, List.pairwise_map] using hpw
  have hkeysmap : alistKeys ((cf c).map (fun p => (p.1, encodeGoAny p.2))) =
      alistKeys (cf c) := by
    simp [alistKeys, Function.comp]
  have hdec : ∀ ms' : List (String × JVal),
      ms'.Perm ((cf c).map (fun p => (p.1, encodeGoAny p.2)) ++ inst.others) →
      decodeDiscriminated extDecodeInst w (choices.map (fun c => (vof c, c)))
        fbv hfb (.obj ms') = .ok inst := by
    intro ms' hperm
    have hndmm : (alistKeys ((cf c).map (fun p => (p.1, encodeGoAny p.2)) ++
        inst.others)).Nodup := by
      rw [alistKeys_append, hkeysmap, List.nodup_append]
      refine ⟨hndcf, hndoth, ?_⟩
      intro k hk1 hk2
      rw [mem_alistKeys_iff_find_isSome] at hk1
      obtain ⟨p, hp, hpk⟩ : ∃ p ∈ inst.others, p.1 = k := by
        simpa [alistKeys, List.mem_map] using hk2
      rw [← hpk] at hk1
      rw [hdisj p hp] at hk1
      simp at hk1
    have hndms : (alistKeys ms').Nodup :=
      ((hperm.map Prod.fst).nodup_iff).mpr hndmm
    have hwmem : (w, encodeGoAny (vof c)) ∈ ms' := by
      apply hperm.mem_iff.mpr
      apply List.mem_append_left
      exact List.mem_map.mpr
        ⟨(w, vof c), alistFind_mem w (vof c) (cf c) (hall c hc), rfl⟩
    have hfindw : alistFind w ms' = some (encodeGoAny (vof c)) :=
      alistFind_of_mem_nodup w _ ms' hndms hwmem
    have hfv : fieldValue (.obj ms') w = .ok (vof c) := by
      have hred : fieldValue (.obj ms') w = fieldValueLoop w ms' := rfl
      rw [hred, fieldValueLoop_eq_find]
      simp only [hfindw]
      rw [hstable]
    have hlook : alistFind (vof c) (choices.map (fun c => (vof c, c))) = some c := by
      apply alistFind_of_mem_nodup
      · have hkeys : alistKeys (choices.map (fun c => (vof c, c))) =
            choices.map vof := by
          simp [alistKeys, Function.comp]
        rw [hkeys]
        simpa [List.Nodup, List.pairwise_map] using hdist
      · exact List.mem_map_of_mem _ hc
    have hall' : (ms'.all fun kv =>
        match alistFind kv.1 (cf c) with
        | some cv => decodeConstCheck cv kv.2
        | none => true) = true := by
      rw [List.all_eq_true]
      intro kv hkv
      rcases List.mem_append.mp (hperm.subset hkv) with hkm | hko
      · obtain ⟨p, hp, hkeq⟩ := List.mem_map.mp hkm
        have hfindp : alistFind p.1 (cf c) = some p.2 :=
          alistFind_of_mem_nodup p.1 p.2 (cf c) hndcf (by rw [Prod.mk.eta]; exact hp)
        rw [← hkeq]
        simp only [hfindp]
        exact decodeConstCheck_encode p.2
      · simp only [hdisj kv hko]
    have hfilter : (ms'.filter fun kv => (alistFind kv.1 (cf c)).isNone).Perm
        inst.others := by
      have h1 : (((cf c).map (fun p => (p.1, encodeGoAny p.2)) ++
          inst.others).filter fun kv => (alistFind kv.1 (cf c)).isNone) =
          inst.others := by
        rw [List.filter_append]
        have hcpart : (((cf c).map (fun p => (p.1, encodeGoAny p.2))).filter
            fun kv => (alistFind kv.1 (cf c)).isNone) = [] := by
          rw [List.filter_eq_nil_iff]
          intro kv hkv
          obtain ⟨p, hp, hkeq⟩ := List.mem_map.mp hkv
          have hfindp : alistFind p.1 (cf c) = some p.2 :=
            alistFind_of_mem_nodup p.1 p.2 (cf c) hndcf (by rw [Prod.mk.eta]; exact hp)
          rw [← hkeq]
          simp [hfindp]
        have hopart : (inst.others.filter
            fun kv => (alistFind kv.1 (cf c)).isNone) = inst.others := by
          rw [List.filter_eq_self]
          intro kv hkv
          simp [hdisj kv hkv]
        rw [hcpart, hopart]
        simp
      exact (hperm.filter _).trans (by rw [h1])
    have hsorteq : sortByKey (ms'.filter fun kv =>
        (alistFind kv.1 (cf c)).isNone) = inst.others := by
      apply eq_of_perm_of_pairwise_lt
      · exact (sortByKey_perm _).trans hfilter
      · apply pairwise_lt_of_le_nodup
        · exact sortByKey_pairwise_le _
        · exact ((((sortByKey_perm _).trans hfilter).map Prod.fst).nodup_iff).mpr hndoth
      · exact hsorted
    have hext : extDecodeInst c (.obj ms') = .ok inst := by
      unfold extDecodeInst
      simp only [ht, hcft]
      rw [if_pos hall', hsorteq, ← hit]
    unfold decodeDiscriminated
    simp only [hfv, hlook]
    unfold decodeTarget
    simp only [hext]
  exact ⟨hdet, hmar, hdec, by rw [hmar]; exact hdec _ (List.Perm.refl _)⟩

/-- The unique common constant-bearing wire name of the dog/cat family. -/
theorem exCf_uniq (w' : String)
    (h : ∀ c ∈ [dogV, catV], (alistFind w' (exCf c)).isSome) : w' = "Type" := by
  have h1 := h dogV (by simp)
  have hcf : exCf dogV = [("Type", GoAny.str "dog")] := by decide
  rw [hcf] at h1
  by_cases ht : "Type" = w'
  · exact ht.symm
  · rw [show alistFind w' [("Type", GoAny.str "dog")] =
        if "Type" = w' then some (GoAny.str "dog") else none from rfl] at h1
    rw [if_neg ht] at h1
    simp at h1

/-- Witness for the amended C2: a dog instance round-trips, members
permuted. -/
theorem c2_witness :
    decodeDiscriminated extDecodeInst "Type"
      (List.map (fun c => (exVof c, c)) [dogV, catV]) nilIface false
      (.obj [("Bark", .str "woof"), ("Type", .str "dog")]) =
      .ok ⟨dogT, [("Bark", .str "woof")]⟩ := by
  have h := c2_roundtrip_order_independent [dogV, catV] exCf "Type" exVof
    (by decide) (by decide) (by decide) exCf_uniq (by decide) (by decide)
    dogV (by simp) dogT (by decide) (by decide)
    ⟨dogT, [("Bark", .str "woof")]⟩ (by decide) (by decide) (by decide)
    nilIface false
  exact h.2.2.1 [("Bark", .str "woof"), ("Type", .str "dog")] (by decide)

end Jsondiscrim
